import Mathlib

/-!
# dualsimplex: numerical core of `src/optimization.cpp`

Shallow embedding of the hinge primitives, `jump_norm`, `calcErrors` and the
alternating loop `derivative_stage2`.

Conventions of the embedding.

* `double` is modelled by an arbitrary linearly ordered field `α` (exact
  arithmetic, no rounding, no NaN/Inf); the square root is an explicit
  argument `sqrt : α → α`, so every definition is executable over `ℚ`
  (with `Rat.sqrt`) and every theorem holds over `ℝ` with `Real.sqrt`.
* `arma::mat` of a fixed shape is `Matrix (Fin m) (Fin n) α`; column vectors
  are functions `Fin n → α`.  The three statistics tables, whose shape comes
  from the run-time arguments `iterations` and `cell_types`, are `Table`s.
* Where the shapes of the arguments themselves are in question
  (`hinge_der_proportions_C__` with an `R` that does not fit `H`), matrices are
  `DMat`s, which carry `n_rows` and `n_cols` as values, and element reads are
  bounds-checked as in Armadillo; `hinge_der_proportions_checked` is that
  model, and it agrees with the fixed-shape one on matrices of one shape.
* The `int` arguments `iterations` and `cell_types` are natural numbers.
* An Armadillo or Rcpp error ends the call: fallible steps return `Option`,
  with `none` for the error.
* The value of `1 / 0` is the field's (`0`), where IEEE arithmetic gives an
  infinity; the theorems below do not depend on which value it is.
* Output on `Rcpp::Rcout` is not modelled.
-/

namespace DualSimplex

open Matrix

set_option linter.unusedSectionVars false

variable {α : Type} [LinearOrderedField α]

/-! ## Armadillo primitives -/

/-- `arma::accu`: the sum of all entries. -/
def accu {m n : ℕ} (A : Matrix (Fin m) (Fin n) α) : α :=
  ∑ i, ∑ j, A i j

/-! ## Hinge primitives -/

/-- `hinge_C__` (optimization.cpp 72-85): `X_` starts as zeros, receives
`-X(i,j)` at every entry with `X(i,j) < 0`, and is summed by `accu`. -/
def hinge_C__ {m n : ℕ} (X : Matrix (Fin m) (Fin n) α) : α :=
  let X_ : Matrix (Fin m) (Fin n) α :=
    Matrix.of fun i j => if X i j < 0 then -X i j else 0
  accu X_

/-- `hinge_der_proportions_C__` (optimization.cpp 40-57).  `TMP` is the
`n × (m*m)` scratch matrix; its column `k + i*m` is addressed here by
`finProdFinEquiv (i, k)`.  `arma::sum(TMP, 0)` takes the column sums, and
`reshape(·, m, m).t()` puts the sum of column `k + i*m` at position `(i, k)`.
The argument `precision_` is not read. -/
def hinge_der_proportions_C__ {m n : ℕ} (H : Matrix (Fin m) (Fin n) α)
    (R : Matrix (Fin m) (Fin n) α) (_precision_ : α) : Matrix (Fin m) (Fin m) α :=
  let TMP : Matrix (Fin n) (Fin (m * m)) α :=
    Matrix.of fun j c =>
      let ik := finProdFinEquiv.symm c
      if H ik.1 j < 0 then -R ik.2 j else 0
  let colsum : Fin (m * m) → α := fun c => ∑ j, TMP j c
  Matrix.of fun i k => colsum (finProdFinEquiv (i, k))

/-- `hinge_der_basis_C__` (optimization.cpp 59-70): column `j` of the result
is `arma::sum(-S.cols(find(t < -precision_)), 1)` with `t = W.col(j)`. -/
def hinge_der_basis_C__ {p n : ℕ} (W : Matrix (Fin p) (Fin n) α)
    (S : Matrix (Fin n) (Fin p) α) (precision_ : α) : Matrix (Fin n) (Fin n) α :=
  Matrix.of fun k j =>
    let t : Fin p → α := fun i => W i j
    let found : Finset (Fin p) := Finset.univ.filter fun i => t i < -precision_
    ∑ i in found, -S k i


/-! ## The proportions sub-gradient on matrices of run-time shape -/

/-- An `arma::mat` whose shape is a run-time value: `n_rows`, `n_cols` and the
entries, which are read inside the shape only. -/
structure DMat (α : Type) where
  n_rows : ℕ
  n_cols : ℕ
  elem : ℕ → ℕ → α

/-- `A(i, j)`: Armadillo's element access raises an error when an index is out
of bounds. -/
def DMat.at? (A : DMat α) (i j : ℕ) : Option α :=
  if i < A.n_rows ∧ j < A.n_cols then some (A.elem i j) else none

/-- A matrix of fixed shape as a matrix of run-time shape. -/
def DMat.ofMatrix {m n : ℕ} (A : Matrix (Fin m) (Fin n) α) : DMat α :=
  { n_rows := m
    n_cols := n
    elem := fun i j => if h : i < m ∧ j < n then A ⟨i, h.1⟩ ⟨j, h.2⟩ else 0 }

/-- `TMP(j, c) = v`. -/
def set_entry (TMP : ℕ → ℕ → α) (j c : ℕ) (v : α) : ℕ → ℕ → α :=
  fun j' c' => if j' = j ∧ c' = c then v else TMP j' c'

/-- The first `b` passes of `for (k = 0; k < m; k++) TMP(j, k + i*m) = -R(k, j)`
(optimization.cpp 49-51); the read `R(k, j)` is bounds-checked. -/
def tmp_loop_k (R : DMat α) (m i j : ℕ) (TMP : ℕ → ℕ → α) (b : ℕ) : Option (ℕ → ℕ → α) :=
  (List.range b).foldlM
    (fun TMP k =>
      match R.at? k j with
      | none => none
      | some r => some (set_entry TMP j (k + i * m) (-r)))
    TMP

/-- The first `b` passes of `for (j = 0; j < n; j++) if (H(i, j) < 0) ...`
(optimization.cpp 47-53). -/
def tmp_loop_j (H R : DMat α) (i : ℕ) (TMP : ℕ → ℕ → α) (b : ℕ) : Option (ℕ → ℕ → α) :=
  (List.range b).foldlM
    (fun TMP j =>
      if H.elem i j < 0 then tmp_loop_k R H.n_rows i j TMP H.n_rows else some TMP)
    TMP

/-- The first `b` passes of `for (i = 0; i < m; i++) ...` (optimization.cpp
46-54), starting from `TMP` filled with zeros. -/
def tmp_loop_i (H R : DMat α) (b : ℕ) : Option (ℕ → ℕ → α) :=
  (List.range b).foldlM (fun TMP i => tmp_loop_j H R i TMP H.n_cols) (fun _ _ => 0)

/-- `hinge_der_proportions_C__` (optimization.cpp 40-57) on matrices of
run-time shape: no shape is compared; `m` and `n` are read from `H`, `TMP` is
filled by the three loops, `arma::sum(TMP, 0)` takes the column sums,
`reshape(·, m, m)` places the sum of column `r + c*m` at `(r, c)` and `.t()`
transposes.  `none` stands for the error of an out-of-bounds read of `R`. -/
def hinge_der_proportions_checked (H R : DMat α) (_precision_ : α) : Option (DMat α) :=
  let m := H.n_rows
  let n := H.n_cols
  match tmp_loop_i H R m with
  | none => none
  | some TMP =>
    let colsum : ℕ → α := fun c => ∑ j in Finset.range n, TMP j c
    let reshaped : ℕ → ℕ → α := fun r c => colsum (r + c * m)
    some { n_rows := m, n_cols := m, elem := fun i k => reshaped k i }

/-! ## Jump norm -/

/-- `norm(v, 2)` of a vector: the square root of the sum of the squared
entries. -/
def norm_2 {n : ℕ} (sqrt : α → α) (v : Fin n → α) : α :=
  sqrt (∑ j, v j ^ 2)

/-- `jump_norm` (optimization.cpp 6-23).  `norm_` starts filled with `1.0`;
`X_trunc` holds the columns `1 .. n_cols - 1` of `X`; for every row `k` the
entries `norm_(k, j)`, `j ≥ 1`, become `r_const_X / row_norm` when
`r_const_X > row_norm` and `1` otherwise.  With fewer than two columns the
construction of `X_trunc` raises an error (`X.n_cols - 1` wraps around for no
column, and `regspace(1, 0)` asks for the absent column `1` for one column). -/
def jump_norm {m n : ℕ} (sqrt : α → α) (X : Matrix (Fin m) (Fin n) α) (r_const_X : α) :
    Option (Matrix (Fin m) (Fin n) α) :=
  if h : 2 ≤ n then
    let X_trunc : Matrix (Fin m) (Fin (n - 1)) α :=
      Matrix.of fun k j => X k ⟨j.val + 1, by omega⟩
    some (Matrix.of fun k j =>
      let row_norm := norm_2 sqrt (fun j' => X_trunc k j')
      if j.val = 0 then 1
      else if r_const_X > row_norm then r_const_X / row_norm else 1)
  else none

/-! ## Error accounting -/

/-- `norm(·, "fro")` of a matrix: the square root of the sum of the squared
entries. -/
def norm_fro {m n : ℕ} (sqrt : α → α) (A : Matrix (Fin m) (Fin n) α) : α :=
  sqrt (∑ i, ∑ j, A i j ^ 2)

/-- `norm(·, "fro")` of a column vector. -/
def norm_fro_vec {n : ℕ} (sqrt : α → α) (v : Fin n → α) : α :=
  sqrt (∑ i, v i ^ 2)

/-- `arma::sum(·, 1)`: the column vector of row sums. -/
def sum_rows {m n : ℕ} (A : Matrix (Fin m) (Fin n) α) : Fin m → α :=
  fun i => ∑ j, A i j

/-- The record returned by `calcErrors`. -/
structure Errors (α : Type) where
  deconv_error : α
  lambda_error : α
  beta_error : α
  D_h_error : α
  D_w_error : α
  total_error : α

/-- `calcErrors` (optimization.cpp 87-120).  `coef_der_X` and
`coef_der_Omega` are accepted and not read. -/
def calcErrors {a n b q p : ℕ} (sqrt : α → α)
    (X : Matrix (Fin n) (Fin b) α) (Omega : Matrix (Fin a) (Fin n) α)
    (D_w D_h : Fin n → α) (SVRt : Matrix (Fin a) (Fin b) α)
    (R : Matrix (Fin b) (Fin q) α) (S : Matrix (Fin a) (Fin p) α)
    (coef_ _coef_der_X _coef_der_Omega coef_hinge_H coef_hinge_W coef_pos_D_h
      coef_pos_D_w : α) : Errors α :=
  let D_w_diag : Matrix (Fin n) (Fin n) α := Matrix.diagonal D_w
  let deconv_error := norm_fro sqrt (SVRt - Omega * D_w_diag * X) ^ 2
  let lambda_error := coef_ * coef_hinge_H * hinge_C__ (X * R)
  let beta_error := coef_ * coef_hinge_W * hinge_C__ (Sᵀ * Omega)
  let A := sum_rows R
  let B := sum_rows S
  let D_h_error := coef_pos_D_h * norm_fro_vec sqrt (Xᵀ.mulVec D_h - A) ^ 2
  let D_w_error := coef_pos_D_w * norm_fro_vec sqrt (Omega.mulVec D_w - B) ^ 2
  let new_error := deconv_error + lambda_error + beta_error + D_h_error + D_w_error
  { deconv_error := deconv_error
    lambda_error := lambda_error
    beta_error := beta_error
    D_h_error := D_h_error
    D_w_error := D_w_error
    total_error := new_error }

/-! ## Diagnostic tables -/

/-- An `arma::mat` whose shape is only known at run time (the three
statistics tables): `n_rows`, `n_cols` and the rows of entries. -/
structure Table (α : Type) where
  n_rows : ℕ
  n_cols : ℕ
  rows : List (List α)

/-- `arma::mat T(r, c, arma::fill::zeros)`. -/
def Table.zeros (r c : ℕ) : Table α :=
  { n_rows := r, n_cols := c, rows := List.replicate r (List.replicate c 0) }

/-- `T.row(i) = row`: Armadillo raises an error when `i` is out of bounds or
when the length of `row` differs from `T.n_cols`. -/
def Table.setRow (t : Table α) (i : ℕ) (row : List α) : Option (Table α) :=
  if i < t.n_rows ∧ row.length = t.n_cols then
    some { t with rows := t.rows.set i row }
  else none

/-- Row `i` of a table, when present. -/
def Table.row? (t : Table α) (i : ℕ) : Option (List α) := t.rows[i]?

/-- A table whose stored rows agree with its declared shape `r × c`. -/
def Table.HasShape (t : Table α) (r c : ℕ) : Prop :=
  t.n_rows = r ∧ t.n_cols = c ∧ t.rows.length = r ∧ ∀ row ∈ t.rows, row.length = c

/-- `A.as_row()`: the matrix flattened row after row. -/
def as_row {m n : ℕ} (A : Matrix (Fin m) (Fin n) α) : List α :=
  (List.finRange m).flatMap fun i => (List.finRange n).map fun j => A i j

/-! ## External collaborators of the loop -/

/-- `arma::inv`: raises `std::runtime_error` on a singular matrix, otherwise
returns the inverse (here `det⁻¹ • adjugate`). -/
def arma_inv {n : ℕ} (A : Matrix (Fin n) (Fin n) α) : Option (Matrix (Fin n) (Fin n) α) :=
  if A.det = 0 then none else some (A.det⁻¹ • A.adjugate)

/-- Modelled from the spec: `getNegative` is declared in `matrix_utils.h` and
its body is not part of the sources at hand; the specification describes it
as the count of (strictly) negative entries of its argument. -/
def getNegative {m n : ℕ} (A : Matrix (Fin m) (Fin n) α) : ℕ :=
  ∑ i, ∑ j, if A i j < 0 then 1 else 0

/-! ## The alternating loop -/

/-- The arguments of `derivative_stage2` (optimization.cpp 122-142), for an
`n × n` problem with `R : n × q` and `S : n × p`. -/
structure Stage2Args (α : Type) (n q p : ℕ) where
  X : Matrix (Fin n) (Fin n) α
  Omega : Matrix (Fin n) (Fin n) α
  D_w : Fin n → α
  SVRt : Matrix (Fin n) (Fin n) α
  R : Matrix (Fin n) (Fin q) α
  S : Matrix (Fin n) (Fin p) α
  coef_der_X : α
  coef_der_Omega : α
  coef_hinge_H : α
  coef_hinge_W : α
  coef_pos_D_h : α
  coef_pos_D_w : α
  cell_types : ℕ
  N : α
  M : α
  iterations : ℕ
  mean_radius_X : α
  mean_radius_Omega : α
  r_const_X : α
  r_const_Omega : α
  thresh : α

/-- The variables of `derivative_stage2` that live across iterations
(optimization.cpp 143-156). -/
structure LoopState (α : Type) (n : ℕ) where
  errors_statistics : Table α
  points_statistics_X : Table α
  points_statistics_Omega : Table α
  new_X : Matrix (Fin n) (Fin n) α
  new_Omega : Matrix (Fin n) (Fin n) α
  final_X : Matrix (Fin n) (Fin n) α
  final_Omega : Matrix (Fin n) (Fin n) α
  new_D_w : Fin n → α
  new_D_w_x : Fin n → α
  new_D_w_x_sqrt : Fin n → α
  new_D_w_omega : Fin n → α
  new_D_w_omega_sqrt : Fin n → α
  new_D_h : Fin n → α

/-- `sqrt_Sigma = arma::sqrt(arma::diagvec(SVRt))` (optimization.cpp 162-163). -/
def sqrt_Sigma {n q p : ℕ} (sqrt : α → α) (a : Stage2Args α n q p) : Fin n → α :=
  fun i => sqrt (Matrix.diag a.SVRt i)

/-- The state at loop entry (optimization.cpp 143-176): the tables are
allocated, and `X`, `Omega` are rescaled into tilde space. -/
def stage2_init {n q p : ℕ} (sqrt : α → α) (a : Stage2Args α n q p) : LoopState α n :=
  let new_D_w_x_sqrt : Fin n → α := fun i => sqrt (a.D_w i)
  let new_D_w_omega_sqrt : Fin n → α := fun i => sqrt (a.D_w i)
  { errors_statistics := Table.zeros a.iterations 9
    points_statistics_X := Table.zeros a.iterations (a.cell_types * a.cell_types)
    points_statistics_Omega := Table.zeros a.iterations (a.cell_types * a.cell_types)
    new_X := Matrix.diagonal new_D_w_x_sqrt * a.X
      * Matrix.diagonal (fun i => 1 / sqrt_Sigma sqrt a i)
    new_Omega := Matrix.diagonal (fun i => 1 / sqrt_Sigma sqrt a i) * a.Omega
      * Matrix.diagonal new_D_w_omega_sqrt
    final_X := a.X
    final_Omega := a.Omega
    new_D_w := a.D_w
    new_D_w_x := a.D_w
    new_D_w_x_sqrt := new_D_w_x_sqrt
    new_D_w_omega := a.D_w
    new_D_w_omega_sqrt := new_D_w_omega_sqrt
    new_D_h := fun i => a.D_w i * (a.N / a.M) }

/-- Steps a-b of an iteration (optimization.cpp 203-211): the gradient of the
`X` half-step, its normalisation, and the updated tilde-`X`.
`correctByNorm` (from `matrix_utils.h`) and `precision_` (the default argument
of the two hinge sub-gradients, declared in `optimization.h`) are not part of
the sources at hand and are parameters. -/
def update_X {n q p : ℕ} (sqrt : α → α)
    (correctByNorm : Matrix (Fin n) (Fin n) α → Matrix (Fin n) (Fin n) α)
    (precision_ : α) (a : Stage2Args α n q p) (new_X : Matrix (Fin n) (Fin n) α) :
    Matrix (Fin n) (Fin n) α :=
  let sqrt_Sigma := sqrt_Sigma sqrt a
  let der_X := (a.coef_hinge_H •
      hinge_der_proportions_C__ (new_X * Matrix.diagonal sqrt_Sigma * a.R) a.R precision_)
    * Matrix.diagonal (fun i => 1 / sqrt_Sigma i)
  let der_X := a.mean_radius_X • correctByNorm der_X
  new_X - a.coef_der_X • der_X

/-- Steps e-f of an iteration (optimization.cpp 237-245): the gradient of the
`Omega` half-step, its normalisation, and the updated tilde-`Omega`. -/
def update_Omega {n q p : ℕ} (sqrt : α → α)
    (correctByNorm : Matrix (Fin n) (Fin n) α → Matrix (Fin n) (Fin n) α)
    (precision_ : α) (a : Stage2Args α n q p) (new_Omega : Matrix (Fin n) (Fin n) α) :
    Matrix (Fin n) (Fin n) α :=
  let sqrt_Sigma := sqrt_Sigma sqrt a
  let der_Omega := (a.coef_hinge_W • Matrix.diagonal (fun i => 1 / sqrt_Sigma i))
    * hinge_der_basis_C__ (a.Sᵀ * Matrix.diagonal sqrt_Sigma * new_Omega) a.S precision_
  let der_Omega := a.mean_radius_Omega • correctByNorm der_Omega
  new_Omega - a.coef_der_Omega • der_Omega

/-- The values computed in steps h-l of an iteration. -/
structure IterationValues (α : Type) (n : ℕ) where
  new_D_w_omega_sqrt : Fin n → α
  new_D_w_omega : Fin n → α
  new_D_w_x_sqrt : Fin n → α
  new_D_w_x : Fin n → α
  new_D_w : Fin n → α
  new_D_h : Fin n → α
  neg_props : ℕ
  neg_basis : ℕ
  sum_ : α
  final_X : Matrix (Fin n) (Fin n) α
  final_Omega : Matrix (Fin n) (Fin n) α
  current_errors : Errors α

/-- Steps h-l of an iteration (optimization.cpp 253-294), from the tilde-`X`
and tilde-`Omega` left by step g: scale vectors, negative counts, de-scaled
factors and their errors.  `h` records that column `0` exists. -/
def iteration_values {n q p : ℕ} (sqrt : α → α) (a : Stage2Args α n q p) (h : 0 < n)
    (new_X new_Omega : Matrix (Fin n) (Fin n) α) : IterationValues α n :=
  let sqrt_Sigma := sqrt_Sigma sqrt a
  let new_D_w_omega_sqrt : Fin n → α :=
    fun i => new_Omega ⟨0, h⟩ i * sqrt_Sigma ⟨0, h⟩ * sqrt a.M
  let new_D_w_omega : Fin n → α := fun i => new_D_w_omega_sqrt i ^ 2
  let new_D_w_x_sqrt : Fin n → α := fun i => new_X i ⟨0, h⟩ * sqrt_Sigma ⟨0, h⟩ * sqrt a.N
  let new_D_w_x : Fin n → α := fun i => new_D_w_x_sqrt i ^ 2
  let new_D_w : Fin n → α := new_D_w_x
  let new_D_w : Fin n → α := fun i => new_D_w i ^ 2
  let new_D_h : Fin n → α := fun i => new_D_w i * (a.N / a.M)
  let neg_props : ℕ := getNegative (new_X * a.R)
  let neg_basis : ℕ := getNegative (a.Sᵀ * new_Omega)
  let sum_ : α := (∑ i, new_D_w i) / a.M
  -- result X and omega
  let final_X := Matrix.diagonal (fun i => 1 / new_D_w i) * new_X * Matrix.diagonal sqrt_Sigma
  let final_Omega := Matrix.diagonal sqrt_Sigma * new_Omega
    * Matrix.diagonal (fun i => 1 / new_D_w i)
  let current_errors := calcErrors sqrt final_X final_Omega new_D_w new_D_h a.SVRt
    a.R a.S 1 a.coef_der_X a.coef_der_Omega a.coef_hinge_H a.coef_hinge_W
    a.coef_pos_D_h a.coef_pos_D_w
  { new_D_w_omega_sqrt := new_D_w_omega_sqrt
    new_D_w_omega := new_D_w_omega
    new_D_w_x_sqrt := new_D_w_x_sqrt
    new_D_w_x := new_D_w_x
    new_D_w := new_D_w
    new_D_h := new_D_h
    neg_props := neg_props
    neg_basis := neg_basis
    sum_ := sum_
    final_X := final_X
    final_Omega := final_Omega
    current_errors := current_errors }

/-- The row stored in `errors_statistics` (optimization.cpp 296-304). -/
def errors_row {n : ℕ} (v : IterationValues α n) : List α :=
  [v.current_errors.deconv_error, v.current_errors.lambda_error,
    v.current_errors.beta_error, v.current_errors.D_h_error,
    v.current_errors.D_w_error, v.current_errors.total_error,
    (v.neg_props : α), (v.neg_basis : α), v.sum_]

/-- The table writes that close an iteration (optimization.cpp 296-308) and
the state handed to the next one. -/
def record_iteration {n : ℕ} (st : LoopState α n) (itr_ : ℕ)
    (new_X new_Omega : Matrix (Fin n) (Fin n) α) (v : IterationValues α n) :
    Option (LoopState α n) :=
  match st.errors_statistics.setRow itr_ (errors_row v) with
  | none => none
  | some errors_statistics =>
    match st.points_statistics_X.setRow itr_ (as_row v.final_X) with
    | none => none
    | some points_statistics_X =>
      match st.points_statistics_Omega.setRow itr_ (as_row v.final_Omega) with
      | none => none
      | some points_statistics_Omega =>
        some
          { errors_statistics := errors_statistics
            points_statistics_X := points_statistics_X
            points_statistics_Omega := points_statistics_Omega
            new_X := new_X
            new_Omega := new_Omega
            final_X := v.final_X
            final_Omega := v.final_Omega
            new_D_w := v.new_D_w
            new_D_w_x := v.new_D_w_x
            new_D_w_x_sqrt := v.new_D_w_x_sqrt
            new_D_w_omega := v.new_D_w_omega
            new_D_w_omega_sqrt := v.new_D_w_omega_sqrt
            new_D_h := v.new_D_h }

/-- One pass through the loop body (optimization.cpp 196-309) for the loop
counter `itr_`.  The scale vectors derived in step d (lines 218-230) are only
printed and are overwritten in step h, so they are not carried here;
`new_X.col(0)` in step d raises an error on a matrix without columns. -/
def stage2_iteration {n q p : ℕ} (sqrt : α → α)
    (correctByNorm : Matrix (Fin n) (Fin n) α → Matrix (Fin n) (Fin n) α)
    (precision_ : α) (a : Stage2Args α n q p) (st : LoopState α n) (itr_ : ℕ) :
    Option (LoopState α n) :=
  let new_X := update_X sqrt correctByNorm precision_ a st.new_X
  match arma_inv new_X with
  | none => none
  | some new_Omega =>
    if h : 0 < n then
      let new_Omega := update_Omega sqrt correctByNorm precision_ a new_Omega
      match arma_inv new_Omega with
      | none => none
      | some new_X =>
        record_iteration st itr_ new_X new_Omega (iteration_values sqrt a h new_X new_Omega)
    else none

/-- The state after the first `k` passes of
`for (itr_ = 0; itr_ < iterations; itr_++)`, or `none` when one of them
raised an error. -/
def stage2_loop {n q p : ℕ} (sqrt : α → α)
    (correctByNorm : Matrix (Fin n) (Fin n) α → Matrix (Fin n) (Fin n) α)
    (precision_ : α) (a : Stage2Args α n q p) (k : ℕ) : Option (LoopState α n) :=
  (List.range k).foldlM (stage2_iteration sqrt correctByNorm precision_ a) (stage2_init sqrt a)

/-- The record returned by `derivative_stage2` (optimization.cpp 312-318). -/
structure Stage2Result (α : Type) (n : ℕ) where
  new_X : Matrix (Fin n) (Fin n) α
  new_Omega : Matrix (Fin n) (Fin n) α
  new_D_w : Fin n → α
  new_D_h : Fin n → α
  errors_statistics : Table α
  points_statistics_X : Table α
  points_statistics_Omega : Table α

/-- The returned record, built from the state at loop exit. -/
def stage2_result {n : ℕ} (st : LoopState α n) : Stage2Result α n :=
  { new_X := st.final_X
    new_Omega := st.final_Omega
    new_D_w := st.new_D_w
    new_D_h := st.new_D_h
    errors_statistics := st.errors_statistics
    points_statistics_X := st.points_statistics_X
    points_statistics_Omega := st.points_statistics_Omega }

/-- `derivative_stage2` (optimization.cpp 122-319): `none` stands for a call
that ends with an error. -/
def derivative_stage2 {n q p : ℕ} (sqrt : α → α)
    (correctByNorm : Matrix (Fin n) (Fin n) α → Matrix (Fin n) (Fin n) α)
    (precision_ : α) (a : Stage2Args α n q p) : Option (Stage2Result α n) :=
  (stage2_loop sqrt correctByNorm precision_ a a.iterations).map stage2_result

/-- The six values of an `Errors` record, in the order in which a row of
`errors_statistics` stores them. -/
def Errors.toList (e : Errors α) : List α :=
  [e.deconv_error, e.lambda_error, e.beta_error, e.D_h_error, e.D_w_error, e.total_error]

/-- The arguments `a` with the initial `Omega` replaced. -/
def Stage2Args.with_Omega {n q p : ℕ} (a : Stage2Args α n q p)
    (Omega : Matrix (Fin n) (Fin n) α) : Stage2Args α n q p :=
  { a with Omega := Omega }

/-! ## Concrete inputs -/

/-- The scaffolding scenario: `SVRt = diag(4, 1)`, identity `R` and `S`, `X`
and `Omega` mutual inverses, unit scale vector, every coefficient zero, three
iterations. -/
def scaffold_args : Stage2Args ℚ 2 2 2 :=
  { X := !![2, 1; 1, 1]
    Omega := !![1, -1; -1, 2]
    D_w := ![1, 1]
    SVRt := !![4, 0; 0, 1]
    R := !![1, 0; 0, 1]
    S := !![1, 0; 0, 1]
    coef_der_X := 0
    coef_der_Omega := 0
    coef_hinge_H := 0
    coef_hinge_W := 0
    coef_pos_D_h := 0
    coef_pos_D_w := 0
    cell_types := 2
    N := 1
    M := 1
    iterations := 3
    mean_radius_X := 1
    mean_radius_Omega := 1
    r_const_X := 0
    r_const_Omega := 0
    thresh := 0 }

/-- A left factor for which row `0` of `hinge_L * hinge_R` is strictly
negative. -/
def hinge_L : Matrix (Fin 2) (Fin 2) ℚ := !![1, -2; 0, 1]

/-- The projection matrix going with `hinge_L`. -/
def hinge_R : Matrix (Fin 2) (Fin 2) ℚ := !![1, 0; 1, 1]

/-- A zero-step input whose `X` is singular. -/
def singular_args : Stage2Args ℚ 2 2 2 :=
  { scaffold_args with X := !![1, 2; 2, 4], iterations := 1 }

/-- A zero-step input with positive `D_w` and singular values for which
`X * R` has no negative entry while `tilde-X * R` has one. -/
def negcount_args : Stage2Args ℚ 2 2 2 :=
  { scaffold_args with X := !![3, -2; 1, 1], R := !![1, 0; 1, 0] }

/-- A zero-step input whose rescaled `X` is invertible and has a zero in its
first column, so that the scale vector carried by the loop has a zero entry. -/
def zero_scale_args : Stage2Args ℚ 2 2 2 :=
  { scaffold_args with
    X := !![0, 1; 1, 0], Omega := !![0, 1; 1, 0], SVRt := !![1, 0; 0, 1], iterations := 1 }

/-- A zero-step input that satisfies `Omega * diag(D_w) * X = SVRt` with
positive `D_w` and singular values. -/
def consistent_args : Stage2Args ℚ 2 2 2 :=
  { scaffold_args with Omega := !![4, -4; -1, 2] }

/-- A zero-step input that satisfies `Omega * diag(D_w) * X = SVRt` and whose
re-derived scale vector equals the square root of the supplied one. -/
def roundtrip_args : Stage2Args ℚ 2 2 2 :=
  { scaffold_args with X := !![1, 1; 1, 2], Omega := !![8, -4; -1, 1] }

/-- A `1 × 2` matrix without negative entry. -/
def shape_H_nonneg : Matrix (Fin 1) (Fin 2) ℚ := !![1, 2]

/-- A `1 × 2` matrix with a strictly negative entry. -/
def shape_H_neg : Matrix (Fin 1) (Fin 2) ℚ := !![-1, 2]

/-- A `1 × 1` matrix. -/
def shape_R_small : Matrix (Fin 1) (Fin 1) ℚ := !![7]

/-- A `3 × 3` matrix. -/
def shape_R_large : Matrix (Fin 3) (Fin 3) ℚ := !![1, 2, 3; 4, 5, 6; 7, 8, 9]

/-- A `1 × 2` matrix. -/
def shape_R_match : Matrix (Fin 1) (Fin 2) ℚ := !![3, 4]

/-! ## Theorems -/

theorem hinge_eq_sum {m n : ℕ} (M : Matrix (Fin m) (Fin n) α) :
    hinge_C__ M = ∑ i, ∑ j, if M i j < 0 then -M i j else 0 := rfl

/-- C1: `hinge_C__ M` is non-negative, it is zero exactly when every entry of
`M` is non-negative, and it is the sum of `|M i j|` over the strictly
negative entries. -/
theorem hinge_nonneg_and_zero_iff {m n : ℕ} (M : Matrix (Fin m) (Fin n) α) :
    0 ≤ hinge_C__ M ∧ (hinge_C__ M = 0 ↔ ∀ i j, 0 ≤ M i j) ∧
      hinge_C__ M = ∑ i, ∑ j, if M i j < 0 then |M i j| else 0 := by
  have hterm : ∀ i j, 0 ≤ (if M i j < 0 then -M i j else 0) := by
    intro i j
    split_ifs with h
    · exact (neg_pos.mpr h).le
    · exact le_rfl
  have hrow : ∀ i, 0 ≤ ∑ j, (if M i j < 0 then -M i j else 0) :=
    fun i => Finset.sum_nonneg fun j _ => hterm i j
  rw [hinge_eq_sum]
  refine ⟨Finset.sum_nonneg fun i _ => hrow i, ?_, ?_⟩
  · rw [Finset.sum_eq_zero_iff_of_nonneg fun i _ => hrow i]
    constructor
    · intro h i j
      have h1 := h i (Finset.mem_univ i)
      rw [Finset.sum_eq_zero_iff_of_nonneg fun j _ => hterm i j] at h1
      have h2 := h1 j (Finset.mem_univ j)
      by_contra hneg
      rw [not_le] at hneg
      rw [if_pos hneg] at h2
      linarith
    · intro h i _
      exact Finset.sum_eq_zero fun j _ => if_neg (not_lt.mpr (h i j))
  · refine Finset.sum_congr rfl fun i _ => Finset.sum_congr rfl fun j _ => ?_
    split_ifs with h
    · exact (abs_of_neg h).symm
    · rfl

theorem hinge_der_proportions_apply {m n : ℕ} (H R : Matrix (Fin m) (Fin n) α) (q : α)
    (i k : Fin m) :
    hinge_der_proportions_C__ H R q i k = ∑ j, if H i j < 0 then -R k j else 0 := by
  simp only [hinge_der_proportions_C__, Matrix.of_apply, Equiv.symm_apply_apply]

theorem stdBasis_perturb_mul_apply {m n : ℕ} (L : Matrix (Fin m) (Fin m) α)
    (R : Matrix (Fin m) (Fin n) α) (i k : Fin m) (eps : α) (a : Fin m) (j : Fin n) :
    ((L + eps • Matrix.stdBasisMatrix i k (1 : α)) * R) a j
      = (L * R) a j + if a = i then eps * R k j else 0 := by
  rw [Matrix.add_mul, Matrix.add_apply, Matrix.smul_mul, Matrix.smul_apply]
  congr 1
  by_cases h : a = i
  · subst h
    simp [Matrix.mul_apply, Matrix.stdBasisMatrix]
  · have h' : ¬ i = a := fun e => h e.symm
    simp [Matrix.mul_apply, Matrix.stdBasisMatrix, h, h']

/-- C2: `hinge_der_proportions_C__` is the exact derivative of the hinge
penalty with respect to the left factor: when perturbing `L i k` by `eps`
leaves the set of strictly negative entries of row `i` of `L * R` unchanged,
the hinge value changes by `eps` times entry `(i, k)` of
`hinge_der_proportions_C__ (L * R) R`, that entry being minus the sum of
`R k j` over the strictly negative `(L * R) i j`; and lowering a strictly
negative entry of a matrix strictly increases its hinge value. -/
theorem hinge_der_proportions_exact {m n : ℕ} (L : Matrix (Fin m) (Fin m) α)
    (R : Matrix (Fin m) (Fin n) α) (i k : Fin m) (eps q : α)
    (hsign : ∀ j, (L * R) i j < 0 ↔ (L * R) i j + eps * R k j < 0) :
    hinge_C__ ((L + eps • Matrix.stdBasisMatrix i k (1 : α)) * R) - hinge_C__ (L * R)
        = eps * hinge_der_proportions_C__ (L * R) R q i k ∧
      hinge_der_proportions_C__ (L * R) R q i k
        = -∑ j in Finset.univ.filter (fun j => (L * R) i j < 0), R k j ∧
      ∀ (H : Matrix (Fin m) (Fin n) α) (a : Fin m) (b : Fin n) (d : α),
        H a b < 0 → 0 < d →
          hinge_C__ H < hinge_C__ (fun x y => if x = a ∧ y = b then H x y - d else H x y) := by
  refine ⟨?_, ?_, ?_⟩
  · rw [hinge_der_proportions_apply, hinge_eq_sum, hinge_eq_sum, ← Finset.sum_sub_distrib]
    rw [Finset.sum_eq_single i]
    · rw [← Finset.sum_sub_distrib, Finset.mul_sum]
      refine Finset.sum_congr rfl fun j _ => ?_
      rw [stdBasis_perturb_mul_apply, if_pos rfl]
      by_cases h : (L * R) i j < 0
      · rw [if_pos h, if_pos ((hsign j).mp h), if_pos h]
        ring
      · rw [if_neg h, if_neg (fun h' => h ((hsign j).mpr h')), if_neg h]
        ring
    · intro a _ ha
      rw [← Finset.sum_sub_distrib]
      refine Finset.sum_eq_zero fun j _ => ?_
      rw [stdBasis_perturb_mul_apply, if_neg ha, add_zero, sub_self]
    · intro h
      exact absurd (Finset.mem_univ i) h
  · rw [hinge_der_proportions_apply, Finset.sum_filter, ← Finset.sum_neg_distrib]
    refine Finset.sum_congr rfl fun j _ => ?_
    split_ifs <;> simp
  · intro H a b d hneg hd
    rw [hinge_eq_sum, hinge_eq_sum, ← sub_pos, ← Finset.sum_sub_distrib]
    rw [Finset.sum_eq_single a]
    · rw [← Finset.sum_sub_distrib, Finset.sum_eq_single b]
      · have h1 : H a b - d < 0 := by linarith
        simp only [true_and, if_true, if_pos hneg, if_pos h1]
        linarith
      · intro y _ hy
        simp [hy]
      · intro h
        exact absurd (Finset.mem_univ b) h
    · intro x _ hx
      rw [← Finset.sum_sub_distrib]
      refine Finset.sum_eq_zero fun y _ => ?_
      simp [hx]
    · intro h
      exact absurd (Finset.mem_univ a) h

theorem hinge_der_proportions_exact_witness :
    hinge_C__ ((hinge_L + (1 / 2 : ℚ) • Matrix.stdBasisMatrix 0 1 (1 : ℚ)) * hinge_R)
        - hinge_C__ (hinge_L * hinge_R)
      = 1 / 2 * hinge_der_proportions_C__ (hinge_L * hinge_R) hinge_R 0 0 1 :=
  (hinge_der_proportions_exact hinge_L hinge_R 0 1 (1 / 2) 0 (by
    intro j
    fin_cases j <;>
      norm_num [hinge_L, hinge_R, Matrix.mul_apply, Fin.sum_univ_two])).1

/-- C3: entry `(k, j)` of `hinge_der_basis_C__ W S precision_` is minus the sum
of `S k i` over the rows `i` with `W i j < -precision_`; column `j` is minus
the sum of the columns of `S` indexed by those rows; and the columns of `S`
at rows with `-precision_ ≤ W i j` (in particular `W i j = -precision_`) do
not influence column `j`. -/
theorem hinge_der_basis_entries {p n : ℕ} (W : Matrix (Fin p) (Fin n) α)
    (S : Matrix (Fin n) (Fin p) α) (precision_ : α) :
    (∀ k j, hinge_der_basis_C__ W S precision_ k j
        = -∑ i in Finset.univ.filter (fun i => W i j < -precision_), S k i) ∧
      (∀ j, (fun k => hinge_der_basis_C__ W S precision_ k j)
        = -∑ i in Finset.univ.filter (fun i => W i j < -precision_), fun k => S k i) ∧
      (∀ k j, hinge_der_basis_C__ W S precision_ k j
        = ∑ i, if W i j < -precision_ then -S k i else 0) ∧
      (∀ (S' : Matrix (Fin n) (Fin p) α) (j : Fin n),
        (∀ i, W i j < -precision_ → ∀ k, S' k i = S k i) →
          ∀ k, hinge_der_basis_C__ W S' precision_ k j
            = hinge_der_basis_C__ W S precision_ k j) := by
  have hentry : ∀ k j, hinge_der_basis_C__ W S precision_ k j
      = -∑ i in Finset.univ.filter (fun i => W i j < -precision_), S k i := by
    intro k j
    simp only [hinge_der_basis_C__, Matrix.of_apply, Finset.sum_neg_distrib]
  refine ⟨hentry, ?_, ?_, ?_⟩
  · intro j
    funext k
    rw [hentry]
    simp [Finset.sum_apply]
  · intro k j
    rw [hentry, Finset.sum_filter, ← Finset.sum_neg_distrib]
    refine Finset.sum_congr rfl fun i _ => ?_
    split_ifs <;> simp
  · intro S' j hS k
    simp only [hinge_der_basis_C__, Matrix.of_apply]
    refine Finset.sum_congr rfl fun i hi => ?_
    rw [hS i (Finset.mem_filter.mp hi).2 k]

/-- C4: the `total_error` returned by `calcErrors` is the sum of the other
five returned values, which are the reconstruction error, the two weighted
hinge penalties and the two weighted scale-consistency errors. -/
theorem calcErrors_total_is_sum {a n b q p : ℕ} (sqrt : α → α)
    (X : Matrix (Fin n) (Fin b) α) (Omega : Matrix (Fin a) (Fin n) α)
    (D_w D_h : Fin n → α) (SVRt : Matrix (Fin a) (Fin b) α)
    (R : Matrix (Fin b) (Fin q) α) (S : Matrix (Fin a) (Fin p) α)
    (coef_ cX cO coef_hinge_H coef_hinge_W coef_pos_D_h coef_pos_D_w : α) :
    (calcErrors sqrt X Omega D_w D_h SVRt R S coef_ cX cO coef_hinge_H coef_hinge_W
        coef_pos_D_h coef_pos_D_w).total_error
      = (calcErrors sqrt X Omega D_w D_h SVRt R S coef_ cX cO coef_hinge_H coef_hinge_W
          coef_pos_D_h coef_pos_D_w).deconv_error
        + (calcErrors sqrt X Omega D_w D_h SVRt R S coef_ cX cO coef_hinge_H coef_hinge_W
          coef_pos_D_h coef_pos_D_w).lambda_error
        + (calcErrors sqrt X Omega D_w D_h SVRt R S coef_ cX cO coef_hinge_H coef_hinge_W
          coef_pos_D_h coef_pos_D_w).beta_error
        + (calcErrors sqrt X Omega D_w D_h SVRt R S coef_ cX cO coef_hinge_H coef_hinge_W
          coef_pos_D_h coef_pos_D_w).D_h_error
        + (calcErrors sqrt X Omega D_w D_h SVRt R S coef_ cX cO coef_hinge_H coef_hinge_W
          coef_pos_D_h coef_pos_D_w).D_w_error ∧
      (calcErrors sqrt X Omega D_w D_h SVRt R S coef_ cX cO coef_hinge_H coef_hinge_W
          coef_pos_D_h coef_pos_D_w).deconv_error
        = norm_fro sqrt (SVRt - Omega * Matrix.diagonal D_w * X) ^ 2 ∧
      (calcErrors sqrt X Omega D_w D_h SVRt R S coef_ cX cO coef_hinge_H coef_hinge_W
          coef_pos_D_h coef_pos_D_w).lambda_error
        = coef_ * coef_hinge_H * hinge_C__ (X * R) ∧
      (calcErrors sqrt X Omega D_w D_h SVRt R S coef_ cX cO coef_hinge_H coef_hinge_W
          coef_pos_D_h coef_pos_D_w).beta_error
        = coef_ * coef_hinge_W * hinge_C__ (Sᵀ * Omega) ∧
      (calcErrors sqrt X Omega D_w D_h SVRt R S coef_ cX cO coef_hinge_H coef_hinge_W
          coef_pos_D_h coef_pos_D_w).D_h_error
        = coef_pos_D_h * norm_fro_vec sqrt (Xᵀ.mulVec D_h - sum_rows R) ^ 2 ∧
      (calcErrors sqrt X Omega D_w D_h SVRt R S coef_ cX cO coef_hinge_H coef_hinge_W
          coef_pos_D_h coef_pos_D_w).D_w_error
        = coef_pos_D_w * norm_fro_vec sqrt (Omega.mulVec D_w - sum_rows S) ^ 2 :=
  ⟨rfl, rfl, rfl, rfl, rfl, rfl⟩

/-! ### Tables -/

theorem as_row_length {m n : ℕ} (A : Matrix (Fin m) (Fin n) α) :
    (as_row A).length = m * n := by
  simp [as_row, List.length_flatMap, Function.comp_def]

theorem Table.zeros_hasShape (r c : ℕ) : (Table.zeros r c : Table α).HasShape r c := by
  refine ⟨rfl, rfl, by simp [Table.zeros], ?_⟩
  intro row hrow
  simp only [Table.zeros] at hrow
  rw [List.eq_of_mem_replicate hrow, List.length_replicate]

theorem Table.zeros_row? (r c i : ℕ) (hi : i < r) :
    (Table.zeros r c : Table α).row? i = some (List.replicate c 0) := by
  simp [Table.zeros, Table.row?, hi]

theorem Table.setRow_eq_some {t t' : Table α} {i : ℕ} {row : List α}
    (h : t.setRow i row = some t') :
    i < t.n_rows ∧ row.length = t.n_cols ∧
      t' = { t with rows := t.rows.set i row } := by
  unfold Table.setRow at h
  split_ifs at h with hc
  exact ⟨hc.1, hc.2, (Option.some.inj h).symm⟩

theorem Table.setRow_of_lt {t : Table α} {i : ℕ} {row : List α}
    (hi : i < t.n_rows) (hlen : row.length = t.n_cols) :
    t.setRow i row = some { t with rows := t.rows.set i row } := by
  unfold Table.setRow
  rw [if_pos ⟨hi, hlen⟩]

theorem Table.setRow_hasShape {t t' : Table α} {i r c : ℕ} {row : List α}
    (h : t.setRow i row = some t') (hs : t.HasShape r c) : t'.HasShape r c := by
  obtain ⟨_, hlen, rfl⟩ := Table.setRow_eq_some h
  obtain ⟨h1, h2, h3, h4⟩ := hs
  refine ⟨h1, h2, by simpa using h3, ?_⟩
  intro x hx
  rcases List.mem_or_eq_of_mem_set hx with hx | hx
  · exact h4 x hx
  · rw [hx, hlen, h2]

theorem Table.setRow_row?_same {t t' : Table α} {i r c : ℕ} {row : List α}
    (h : t.setRow i row = some t') (hs : t.HasShape r c) : t'.row? i = some row := by
  obtain ⟨hi, _, rfl⟩ := Table.setRow_eq_some h
  obtain ⟨h1, _, h3, _⟩ := hs
  have hlt : i < t.rows.length := by omega
  simp [Table.row?, List.getElem?_set, hlt]

theorem Table.setRow_row?_other {t t' : Table α} {i j : ℕ} {row : List α}
    (h : t.setRow i row = some t') (hij : j ≠ i) : t'.row? j = t.row? j := by
  obtain ⟨_, _, rfl⟩ := Table.setRow_eq_some h
  simp [Table.row?, List.getElem?_set_ne (Ne.symm hij)]

/-! ### The loop, step by step -/

theorem record_iteration_eq_some {n : ℕ} {st st' : LoopState α n} {itr_ : ℕ}
    {X Om : Matrix (Fin n) (Fin n) α} {v : IterationValues α n}
    (h : record_iteration st itr_ X Om v = some st') :
    st.errors_statistics.setRow itr_ (errors_row v) = some st'.errors_statistics ∧
      st.points_statistics_X.setRow itr_ (as_row v.final_X)
        = some st'.points_statistics_X ∧
      st.points_statistics_Omega.setRow itr_ (as_row v.final_Omega)
        = some st'.points_statistics_Omega ∧
      st'.new_X = X ∧ st'.new_Omega = Om ∧ st'.final_X = v.final_X ∧
      st'.final_Omega = v.final_Omega ∧ st'.new_D_w = v.new_D_w ∧
      st'.new_D_h = v.new_D_h := by
  unfold record_iteration at h
  cases h1 : st.errors_statistics.setRow itr_ (errors_row v) with
  | none => simp [h1] at h
  | some e =>
    cases h2 : st.points_statistics_X.setRow itr_ (as_row v.final_X) with
    | none => simp [h1, h2] at h
    | some pX =>
      cases h3 : st.points_statistics_Omega.setRow itr_ (as_row v.final_Omega) with
      | none => simp [h1, h2, h3] at h
      | some pO =>
        simp only [h1, h2, h3, Option.some.injEq] at h
        subst h
        exact ⟨rfl, rfl, rfl, rfl, rfl, rfl, rfl, rfl, rfl⟩

theorem record_iteration_isSome {n : ℕ} (st : LoopState α n) (itr_ : ℕ)
    (X Om : Matrix (Fin n) (Fin n) α) (v : IterationValues α n) {k c : ℕ}
    (hk : itr_ < k) (hc : c * c = n * n)
    (h1 : st.errors_statistics.HasShape k 9)
    (h2 : st.points_statistics_X.HasShape k (c * c))
    (h3 : st.points_statistics_Omega.HasShape k (c * c)) :
    ∃ st', record_iteration st itr_ X Om v = some st' := by
  unfold record_iteration
  rw [Table.setRow_of_lt (by rw [h1.1]; exact hk) (by rw [h1.2.1]; rfl),
    Table.setRow_of_lt (by rw [h2.1]; exact hk) (by rw [h2.2.1, as_row_length, hc]),
    Table.setRow_of_lt (by rw [h3.1]; exact hk) (by rw [h3.2.1, as_row_length, hc])]
  exact ⟨_, rfl⟩

theorem stage2_loop_zero {n q p : ℕ} (sqrt : α → α)
    (cbn : Matrix (Fin n) (Fin n) α → Matrix (Fin n) (Fin n) α) (prec : α)
    (a : Stage2Args α n q p) :
    stage2_loop sqrt cbn prec a 0 = some (stage2_init sqrt a) := rfl

theorem stage2_loop_succ {n q p : ℕ} (sqrt : α → α)
    (cbn : Matrix (Fin n) (Fin n) α → Matrix (Fin n) (Fin n) α) (prec : α)
    (a : Stage2Args α n q p) (k : ℕ) :
    stage2_loop sqrt cbn prec a (k + 1)
      = (stage2_loop sqrt cbn prec a k).bind
          (fun st => stage2_iteration sqrt cbn prec a st k) := by
  unfold stage2_loop
  rw [List.range_succ, List.foldlM_append]
  cases (List.range k).foldlM (stage2_iteration sqrt cbn prec a) (stage2_init sqrt a) with
  | none => rfl
  | some st =>
    simp only [Option.bind_eq_bind, Option.some_bind, List.foldlM_cons, List.foldlM_nil]
    cases stage2_iteration sqrt cbn prec a st k <;> rfl

theorem stage2_iteration_eq_some {n q p : ℕ} {sqrt : α → α}
    {cbn : Matrix (Fin n) (Fin n) α → Matrix (Fin n) (Fin n) α} {prec : α}
    {a : Stage2Args α n q p} {st st' : LoopState α n} {itr_ : ℕ}
    (h : stage2_iteration sqrt cbn prec a st itr_ = some st') :
    ∃ (hn : 0 < n) (Om X' : Matrix (Fin n) (Fin n) α),
      arma_inv (update_X sqrt cbn prec a st.new_X) = some Om ∧
      arma_inv (update_Omega sqrt cbn prec a Om) = some X' ∧
      record_iteration st itr_ X' (update_Omega sqrt cbn prec a Om)
        (iteration_values sqrt a hn X' (update_Omega sqrt cbn prec a Om)) = some st' := by
  unfold stage2_iteration at h
  cases h1 : arma_inv (update_X sqrt cbn prec a st.new_X) with
  | none => simp [h1] at h
  | some Om =>
    simp only [h1] at h
    by_cases hn : 0 < n
    · simp only [dif_pos hn] at h
      cases h2 : arma_inv (update_Omega sqrt cbn prec a Om) with
      | none => simp [h2] at h
      | some X' =>
        simp only [h2] at h
        exact ⟨hn, Om, X', rfl, h2, h⟩
    · simp [dif_neg hn] at h

theorem stage2_loop_succ_some {n q p : ℕ} {sqrt : α → α}
    {cbn : Matrix (Fin n) (Fin n) α → Matrix (Fin n) (Fin n) α} {prec : α}
    {a : Stage2Args α n q p} {k : ℕ} {st' : LoopState α n}
    (h : stage2_loop sqrt cbn prec a (k + 1) = some st') :
    ∃ st, stage2_loop sqrt cbn prec a k = some st ∧
      stage2_iteration sqrt cbn prec a st k = some st' := by
  rw [stage2_loop_succ] at h
  cases h0 : stage2_loop sqrt cbn prec a k with
  | none => simp [h0] at h
  | some st => exact ⟨st, rfl, by simpa [h0] using h⟩

theorem stage2_loop_prefix {n q p : ℕ} {sqrt : α → α}
    {cbn : Matrix (Fin n) (Fin n) α → Matrix (Fin n) (Fin n) α} {prec : α}
    {a : Stage2Args α n q p} :
    ∀ (k : ℕ) (st : LoopState α n), stage2_loop sqrt cbn prec a k = some st →
      ∀ j, j ≤ k → ∃ st_j, stage2_loop sqrt cbn prec a j = some st_j := by
  intro k
  induction k with
  | zero =>
    intro st h j hj
    have : j = 0 := by omega
    subst this
    exact ⟨st, h⟩
  | succ k ih =>
    intro st' h j hj
    rcases Nat.lt_or_ge j (k + 1) with hlt | hge
    · obtain ⟨st, hst, _⟩ := stage2_loop_succ_some h
      exact ih st hst j (by omega)
    · have : j = k + 1 := by omega
      subst this
      exact ⟨st', h⟩

/-- Invariant of the loop: the three tables keep the shape they were
allocated with, and `new_D_h = new_D_w * (N / M)`. -/
theorem stage2_loop_invariant {n q p : ℕ} {sqrt : α → α}
    {cbn : Matrix (Fin n) (Fin n) α → Matrix (Fin n) (Fin n) α} {prec : α}
    {a : Stage2Args α n q p} :
    ∀ (k : ℕ) (st : LoopState α n), stage2_loop sqrt cbn prec a k = some st →
      st.errors_statistics.HasShape a.iterations 9 ∧
      st.points_statistics_X.HasShape a.iterations (a.cell_types * a.cell_types) ∧
      st.points_statistics_Omega.HasShape a.iterations (a.cell_types * a.cell_types) ∧
      ∀ i, st.new_D_h i = st.new_D_w i * (a.N / a.M) := by
  intro k
  induction k with
  | zero =>
    intro st h
    rw [stage2_loop_zero] at h
    obtain rfl := Option.some.inj h
    exact ⟨Table.zeros_hasShape _ _, Table.zeros_hasShape _ _, Table.zeros_hasShape _ _,
      fun _ => rfl⟩
  | succ k ih =>
    intro st' h
    obtain ⟨st, hst, hit⟩ := stage2_loop_succ_some h
    obtain ⟨h1, h2, h3, _⟩ := ih st hst
    obtain ⟨hn, Om, X', _, _, hrec⟩ := stage2_iteration_eq_some hit
    obtain ⟨r1, r2, r3, _, _, _, _, rw_, rh⟩ := record_iteration_eq_some hrec
    refine ⟨Table.setRow_hasShape r1 h1, Table.setRow_hasShape r2 h2,
      Table.setRow_hasShape r3 h3, ?_⟩
    intro i
    rw [rh, rw_]
    rfl

/-- What the tables hold after `k` passes: row `j < k` is the row written by
pass `j`. -/
theorem stage2_loop_rows {n q p : ℕ} {sqrt : α → α}
    {cbn : Matrix (Fin n) (Fin n) α → Matrix (Fin n) (Fin n) α} {prec : α}
    {a : Stage2Args α n q p} :
    ∀ (k : ℕ) (st : LoopState α n), stage2_loop sqrt cbn prec a k = some st →
      ∀ j, j < k → ∃ (st' : LoopState α n) (hn : 0 < n),
        stage2_loop sqrt cbn prec a (j + 1) = some st' ∧
        st.errors_statistics.row? j
          = some (errors_row (iteration_values sqrt a hn st'.new_X st'.new_Omega)) ∧
        st.points_statistics_X.row? j = some (as_row st'.final_X) ∧
        st.points_statistics_Omega.row? j = some (as_row st'.final_Omega) := by
  intro k
  induction k with
  | zero =>
    intro st _ j hj
    omega
  | succ k ih =>
    intro st' h j hj
    obtain ⟨st, hst, hit⟩ := stage2_loop_succ_some h
    obtain ⟨h1, h2, h3, _⟩ := stage2_loop_invariant k st hst
    obtain ⟨hn, Om, X', _, _, hrec⟩ := stage2_iteration_eq_some hit
    obtain ⟨r1, r2, r3, rX, rO, rfX, rfO, _, _⟩ := record_iteration_eq_some hrec
    rcases Nat.lt_or_ge j k with hlt | hge
    · obtain ⟨s, hn', hs, e1, e2, e3⟩ := ih st hst j hlt
      have hne : j ≠ k := by omega
      exact ⟨s, hn', hs, by rw [Table.setRow_row?_other r1 hne, e1],
        by rw [Table.setRow_row?_other r2 hne, e2],
        by rw [Table.setRow_row?_other r3 hne, e3]⟩
    · have hjk : j = k := by omega
      subst hjk
      refine ⟨st', hn, h, ?_, ?_, ?_⟩
      · rw [Table.setRow_row?_same r1 h1, rX, rO]
      · rw [Table.setRow_row?_same r2 h2, rfX]
      · rw [Table.setRow_row?_same r3 h3, rfO]

theorem derivative_stage2_eq_some {n q p : ℕ} {sqrt : α → α}
    {cbn : Matrix (Fin n) (Fin n) α → Matrix (Fin n) (Fin n) α} {prec : α}
    {a : Stage2Args α n q p} {res : Stage2Result α n}
    (h : derivative_stage2 sqrt cbn prec a = some res) :
    ∃ st, stage2_loop sqrt cbn prec a a.iterations = some st ∧ res = stage2_result st := by
  unfold derivative_stage2 at h
  cases h0 : stage2_loop sqrt cbn prec a a.iterations with
  | none => simp [h0] at h
  | some st => exact ⟨st, rfl, by simpa [h0] using h.symm⟩

/-! ### `arma::inv` -/

theorem arma_inv_eq_none_iff {n : ℕ} (A : Matrix (Fin n) (Fin n) α) :
    arma_inv A = none ↔ A.det = 0 := by
  unfold arma_inv
  split_ifs with h <;> simp [h]

theorem arma_inv_of_det_ne_zero {n : ℕ} {A : Matrix (Fin n) (Fin n) α} (h : A.det ≠ 0) :
    arma_inv A = some A⁻¹ := by
  unfold arma_inv
  rw [if_neg h, Matrix.inv_def, Ring.inverse_eq_inv]

theorem arma_inv_eq_some {n : ℕ} {A B : Matrix (Fin n) (Fin n) α}
    (h : arma_inv A = some B) : A.det ≠ 0 ∧ B = A⁻¹ := by
  have hdet : A.det ≠ 0 := by
    intro h0
    rw [(arma_inv_eq_none_iff A).mpr h0] at h
    exact Option.noConfusion h
  rw [arma_inv_of_det_ne_zero hdet] at h
  exact ⟨hdet, (Option.some.inj h).symm⟩

theorem arma_inv_inv {n : ℕ} {A : Matrix (Fin n) (Fin n) α} (h : A.det ≠ 0) :
    arma_inv A⁻¹ = some A := by
  have hu : IsUnit A.det := isUnit_iff_ne_zero.mpr h
  have hdet : (A⁻¹).det ≠ 0 := by
    rw [Matrix.det_nonsing_inv, Ring.inverse_eq_inv]
    exact inv_ne_zero h
  rw [arma_inv_of_det_ne_zero hdet, Matrix.nonsing_inv_nonsing_inv A hu]

/-! ### Consequences of the shape of an iteration -/

theorem stage2_iteration_of_inv {n q p : ℕ} {sqrt : α → α}
    {cbn : Matrix (Fin n) (Fin n) α → Matrix (Fin n) (Fin n) α} {prec : α}
    {a : Stage2Args α n q p} (st : LoopState α n) (itr_ : ℕ) (hn : 0 < n)
    {Om X' : Matrix (Fin n) (Fin n) α}
    (h1 : arma_inv (update_X sqrt cbn prec a st.new_X) = some Om)
    (h2 : arma_inv (update_Omega sqrt cbn prec a Om) = some X') :
    stage2_iteration sqrt cbn prec a st itr_
      = record_iteration st itr_ X' (update_Omega sqrt cbn prec a Om)
          (iteration_values sqrt a hn X' (update_Omega sqrt cbn prec a Om)) := by
  unfold stage2_iteration
  simp only [h1, dif_pos hn, h2]

theorem stage2_iteration_eq_none_of_singular {n q p : ℕ} {sqrt : α → α}
    {cbn : Matrix (Fin n) (Fin n) α → Matrix (Fin n) (Fin n) α} {prec : α}
    {a : Stage2Args α n q p} (st : LoopState α n) (itr_ : ℕ)
    (h : (update_X sqrt cbn prec a st.new_X).det = 0 ∨
      (update_Omega sqrt cbn prec a (update_X sqrt cbn prec a st.new_X)⁻¹).det = 0) :
    stage2_iteration sqrt cbn prec a st itr_ = none := by
  cases hit : stage2_iteration sqrt cbn prec a st itr_ with
  | none => rfl
  | some st' =>
    exfalso
    obtain ⟨_, Om, X', h1, h2, _⟩ := stage2_iteration_eq_some hit
    obtain ⟨d1, rfl⟩ := arma_inv_eq_some h1
    obtain ⟨d2, _⟩ := arma_inv_eq_some h2
    rcases h with h | h
    · exact d1 h
    · exact d2 h

theorem update_X_of_coef_zero {n q p : ℕ} (sqrt : α → α)
    (cbn : Matrix (Fin n) (Fin n) α → Matrix (Fin n) (Fin n) α) (prec : α)
    (a : Stage2Args α n q p) (h : a.coef_der_X = 0) (T : Matrix (Fin n) (Fin n) α) :
    update_X sqrt cbn prec a T = T := by
  simp [update_X, h]

theorem update_Omega_of_coef_zero {n q p : ℕ} (sqrt : α → α)
    (cbn : Matrix (Fin n) (Fin n) α → Matrix (Fin n) (Fin n) α) (prec : α)
    (a : Stage2Args α n q p) (h : a.coef_der_Omega = 0) (T : Matrix (Fin n) (Fin n) α) :
    update_Omega sqrt cbn prec a T = T := by
  simp [update_Omega, h]

/-- Zero-step runs: with `coef_der_X = coef_der_Omega = 0` and an invertible
rescaled `X`, every pass succeeds and leaves tilde-`X` at its initial value
and tilde-`Omega` at the inverse of that value. -/
theorem zero_step_loop {n q p : ℕ} (sqrt : α → α)
    (cbn : Matrix (Fin n) (Fin n) α → Matrix (Fin n) (Fin n) α) (prec : α)
    (a : Stage2Args α n q p) (hX : a.coef_der_X = 0) (hO : a.coef_der_Omega = 0)
    (hn : 0 < n) (hct : a.cell_types * a.cell_types = n * n)
    (hdet : (stage2_init sqrt a).new_X.det ≠ 0) :
    ∀ k, k ≤ a.iterations → ∃ st, stage2_loop sqrt cbn prec a k = some st ∧
      st.new_X = (stage2_init sqrt a).new_X ∧
      (1 ≤ k → st.new_Omega = (stage2_init sqrt a).new_X⁻¹ ∧
        st.final_X = (iteration_values sqrt a hn (stage2_init sqrt a).new_X
          (stage2_init sqrt a).new_X⁻¹).final_X ∧
        st.final_Omega = (iteration_values sqrt a hn (stage2_init sqrt a).new_X
          (stage2_init sqrt a).new_X⁻¹).final_Omega ∧
        st.new_D_w = (iteration_values sqrt a hn (stage2_init sqrt a).new_X
          (stage2_init sqrt a).new_X⁻¹).new_D_w) := by
  intro k
  induction k with
  | zero =>
    intro _
    exact ⟨_, stage2_loop_zero sqrt cbn prec a, rfl, fun h => absurd h (by omega)⟩
  | succ k ih =>
    intro hk
    obtain ⟨st, hst, hTX, _⟩ := ih (by omega)
    obtain ⟨s1, s2, s3, _⟩ := stage2_loop_invariant k st hst
    have h1 : arma_inv (update_X sqrt cbn prec a st.new_X)
        = some (stage2_init sqrt a).new_X⁻¹ := by
      rw [update_X_of_coef_zero sqrt cbn prec a hX, hTX]
      exact arma_inv_of_det_ne_zero hdet
    have h2 : arma_inv (update_Omega sqrt cbn prec a (stage2_init sqrt a).new_X⁻¹)
        = some (stage2_init sqrt a).new_X := by
      rw [update_Omega_of_coef_zero sqrt cbn prec a hO]
      exact arma_inv_inv hdet
    have hit := stage2_iteration_of_inv st k hn h1 h2
    rw [update_Omega_of_coef_zero sqrt cbn prec a hO] at hit
    obtain ⟨st', hrec⟩ := record_iteration_isSome st k (stage2_init sqrt a).new_X
      (stage2_init sqrt a).new_X⁻¹ (iteration_values sqrt a hn (stage2_init sqrt a).new_X
        (stage2_init sqrt a).new_X⁻¹) (show k < a.iterations by omega) hct s1 s2 s3
    obtain ⟨_, _, _, rX, rO, rfX, rfO, rD, _⟩ := record_iteration_eq_some hrec
    refine ⟨st', ?_, rX, fun _ => ⟨rO, rfX, rfO, rD⟩⟩
    rw [stage2_loop_succ, hst, Option.some_bind, hit, hrec]

/-- Rows not yet reached by the loop counter still hold the zeros they were
allocated with. -/
theorem stage2_loop_rows_unwritten {n q p : ℕ} {sqrt : α → α}
    {cbn : Matrix (Fin n) (Fin n) α → Matrix (Fin n) (Fin n) α} {prec : α}
    {a : Stage2Args α n q p} :
    ∀ (k : ℕ) (st : LoopState α n), stage2_loop sqrt cbn prec a k = some st →
      ∀ j, k ≤ j → j < a.iterations →
        st.errors_statistics.row? j = some (List.replicate 9 0) ∧
        st.points_statistics_X.row? j
          = some (List.replicate (a.cell_types * a.cell_types) 0) ∧
        st.points_statistics_Omega.row? j
          = some (List.replicate (a.cell_types * a.cell_types) 0) := by
  intro k
  induction k with
  | zero =>
    intro st h j _ hj
    rw [stage2_loop_zero] at h
    obtain rfl := Option.some.inj h
    exact ⟨Table.zeros_row? _ _ _ hj, Table.zeros_row? _ _ _ hj, Table.zeros_row? _ _ _ hj⟩
  | succ k ih =>
    intro st' h j hkj hj
    obtain ⟨st, hst, hit⟩ := stage2_loop_succ_some h
    obtain ⟨_, Om, X', _, _, hrec⟩ := stage2_iteration_eq_some hit
    obtain ⟨r1, r2, r3, _⟩ := record_iteration_eq_some hrec
    obtain ⟨e1, e2, e3⟩ := ih st hst j (by omega) hj
    have hne : j ≠ k := by omega
    exact ⟨by rw [Table.setRow_row?_other r1 hne, e1],
      by rw [Table.setRow_row?_other r2 hne, e2],
      by rw [Table.setRow_row?_other r3 hne, e3]⟩

/-- A pass writes row `itr_` of each table and no other row. -/
theorem stage2_iteration_rows_other {n q p : ℕ} {sqrt : α → α}
    {cbn : Matrix (Fin n) (Fin n) α → Matrix (Fin n) (Fin n) α} {prec : α}
    {a : Stage2Args α n q p} {st st' : LoopState α n} {itr_ : ℕ}
    (h : stage2_iteration sqrt cbn prec a st itr_ = some st') (i : ℕ) (hi : i ≠ itr_) :
    st'.errors_statistics.row? i = st.errors_statistics.row? i ∧
      st'.points_statistics_X.row? i = st.points_statistics_X.row? i ∧
      st'.points_statistics_Omega.row? i = st.points_statistics_Omega.row? i := by
  obtain ⟨_, Om, X', _, _, hrec⟩ := stage2_iteration_eq_some h
  obtain ⟨r1, r2, r3, _⟩ := record_iteration_eq_some hrec
  exact ⟨Table.setRow_row?_other r1 hi, Table.setRow_row?_other r2 hi,
    Table.setRow_row?_other r3 hi⟩

/-- Zero-step runs return a record whose tables repeat one row: the values
derived from the rescaled `X` and its inverse. -/
theorem zero_step_result {n q p : ℕ} (sqrt : α → α)
    (cbn : Matrix (Fin n) (Fin n) α → Matrix (Fin n) (Fin n) α) (prec : α)
    (a : Stage2Args α n q p) (hX : a.coef_der_X = 0) (hO : a.coef_der_Omega = 0)
    (hn : 0 < n) (hct : a.cell_types * a.cell_types = n * n)
    (hdet : (stage2_init sqrt a).new_X.det ≠ 0) :
    ∃ res, derivative_stage2 sqrt cbn prec a = some res ∧
      (1 ≤ a.iterations →
        res.new_X = (iteration_values sqrt a hn (stage2_init sqrt a).new_X
          (stage2_init sqrt a).new_X⁻¹).final_X ∧
        res.new_Omega = (iteration_values sqrt a hn (stage2_init sqrt a).new_X
          (stage2_init sqrt a).new_X⁻¹).final_Omega ∧
        res.new_D_w = (iteration_values sqrt a hn (stage2_init sqrt a).new_X
          (stage2_init sqrt a).new_X⁻¹).new_D_w) ∧
      ∀ i, i < a.iterations →
        res.errors_statistics.row? i
          = some (errors_row (iteration_values sqrt a hn (stage2_init sqrt a).new_X
              (stage2_init sqrt a).new_X⁻¹)) ∧
        res.points_statistics_X.row? i
          = some (as_row (iteration_values sqrt a hn (stage2_init sqrt a).new_X
              (stage2_init sqrt a).new_X⁻¹).final_X) ∧
        res.points_statistics_Omega.row? i
          = some (as_row (iteration_values sqrt a hn (stage2_init sqrt a).new_X
              (stage2_init sqrt a).new_X⁻¹).final_Omega) := by
  obtain ⟨st, hst, _, hfin⟩ :=
    zero_step_loop sqrt cbn prec a hX hO hn hct hdet a.iterations le_rfl
  refine ⟨stage2_result st, by simp [derivative_stage2, hst], ?_, ?_⟩
  · intro hk
    obtain ⟨_, f1, f2, f3⟩ := hfin hk
    exact ⟨f1, f2, f3⟩
  · intro i hi
    obtain ⟨st', hn', hst', e1, e2, e3⟩ := stage2_loop_rows a.iterations st hst i hi
    obtain ⟨st'', hst'', gX, g⟩ :=
      zero_step_loop sqrt cbn prec a hX hO hn hct hdet (i + 1) (by omega)
    rw [hst'] at hst''
    obtain rfl := Option.some.inj hst''
    obtain ⟨gO, gfX, gfO, _⟩ := g (by omega)
    refine ⟨?_, ?_, ?_⟩
    · show st.errors_statistics.row? i = _
      rw [e1, gX, gO]
    · show st.points_statistics_X.row? i = _
      rw [e2, gfX]
    · show st.points_statistics_Omega.row? i = _
      rw [e3, gfO]

theorem rat_sqrt_four : Rat.sqrt 4 = 2 := by norm_num [Rat.sqrt]

theorem rat_sqrt_one : Rat.sqrt 1 = 1 := by simp

theorem scaffold_init_new_X :
    (stage2_init Rat.sqrt scaffold_args).new_X = !![1, 1; 1 / 2, 1] := by
  ext i j
  fin_cases i <;> fin_cases j <;>
    norm_num [stage2_init, scaffold_args, sqrt_Sigma, Matrix.mul_apply, Fin.sum_univ_two,
      Matrix.diagonal, rat_sqrt_four, rat_sqrt_one]

theorem scaffold_det_ne_zero : (stage2_init Rat.sqrt scaffold_args).new_X.det ≠ 0 := by
  rw [scaffold_init_new_X, Matrix.det_fin_two_of]
  norm_num

theorem scaffold_returns :
    ∃ res, derivative_stage2 Rat.sqrt id 0 scaffold_args = some res := by
  obtain ⟨res, hres, _⟩ := zero_step_result Rat.sqrt id 0 scaffold_args rfl rfl
    (by decide) rfl scaffold_det_ne_zero
  exact ⟨res, hres⟩

/-- C5: zero-step fixed point.  With `coef_der_X = coef_der_Omega = 0`, a
non-empty problem, `cell_types = n` and an invertible rescaled `X`, the call
returns, every row of `points_statistics_X` is the flattened returned `new_X`,
every row of `points_statistics_Omega` is the flattened returned `new_Omega`,
and the `total_error` column (index 5) of `errors_statistics` holds one value
in every row; in particular any two rows of a table are equal. -/
theorem zero_step_fixed_point {n q p : ℕ} (sqrt : α → α)
    (cbn : Matrix (Fin n) (Fin n) α → Matrix (Fin n) (Fin n) α) (prec : α)
    (a : Stage2Args α n q p) (hX : a.coef_der_X = 0) (hO : a.coef_der_Omega = 0)
    (hn : 0 < n) (hct : a.cell_types = n)
    (hdet : (stage2_init sqrt a).new_X.det ≠ 0) :
    ∃ (res : Stage2Result α n) (e : α), derivative_stage2 sqrt cbn prec a = some res ∧
      (∀ i, i < a.iterations →
        res.points_statistics_X.row? i = some (as_row res.new_X) ∧
        res.points_statistics_Omega.row? i = some (as_row res.new_Omega) ∧
        (res.errors_statistics.row? i).bind (fun r => r[5]?) = some e) ∧
      ∀ i j, i < a.iterations → j < a.iterations →
        res.points_statistics_X.row? i = res.points_statistics_X.row? j ∧
        res.points_statistics_Omega.row? i = res.points_statistics_Omega.row? j ∧
        res.errors_statistics.row? i = res.errors_statistics.row? j := by
  obtain ⟨res, hres, hfin, hrows⟩ :=
    zero_step_result sqrt cbn prec a hX hO hn (by rw [hct]) hdet
  refine ⟨res, (iteration_values sqrt a hn (stage2_init sqrt a).new_X
    (stage2_init sqrt a).new_X⁻¹).current_errors.total_error, hres, ?_, ?_⟩
  · intro i hi
    obtain ⟨e1, e2, e3⟩ := hrows i hi
    obtain ⟨f1, f2, _⟩ := hfin (by omega)
    refine ⟨by rw [e2, f1], by rw [e3, f2], ?_⟩
    rw [e1]
    rfl
  · intro i j hi hj
    obtain ⟨e1, e2, e3⟩ := hrows i hi
    obtain ⟨g1, g2, g3⟩ := hrows j hj
    exact ⟨by rw [e2, g2], by rw [e3, g3], by rw [e1, g1]⟩

theorem zero_step_fixed_point_witness :
    ∃ (res : Stage2Result ℚ 2) (e : ℚ),
      derivative_stage2 Rat.sqrt id 0 scaffold_args = some res ∧
      (∀ i, i < scaffold_args.iterations →
        res.points_statistics_X.row? i = some (as_row res.new_X) ∧
        res.points_statistics_Omega.row? i = some (as_row res.new_Omega) ∧
        (res.errors_statistics.row? i).bind (fun r => r[5]?) = some e) ∧
      ∀ i j, i < scaffold_args.iterations → j < scaffold_args.iterations →
        res.points_statistics_X.row? i = res.points_statistics_X.row? j ∧
        res.points_statistics_Omega.row? i = res.points_statistics_Omega.row? j ∧
        res.errors_statistics.row? i = res.errors_statistics.row? j :=
  zero_step_fixed_point Rat.sqrt id 0 scaffold_args rfl rfl (by decide) rfl
    scaffold_det_ne_zero

/-- C6: a successful call with `cell_types = n` returns an
`iterations × 9` table `errors_statistics` and two `iterations × (n * n)`
tables; every one of the `iterations` passes `j` is performed, finds row `j`
of each table still zero, writes row `j`, touches no other row, and row `j`
is not changed afterwards. -/
theorem stage2_tables_shape {n q p : ℕ} (sqrt : α → α)
    (cbn : Matrix (Fin n) (Fin n) α → Matrix (Fin n) (Fin n) α) (prec : α)
    (a : Stage2Args α n q p) (res : Stage2Result α n)
    (hres : derivative_stage2 sqrt cbn prec a = some res) (hct : a.cell_types = n) :
    res.errors_statistics.HasShape a.iterations 9 ∧
      res.points_statistics_X.HasShape a.iterations (n * n) ∧
      res.points_statistics_Omega.HasShape a.iterations (n * n) ∧
      ∀ j, j < a.iterations → ∃ (st st' : LoopState α n) (hn : 0 < n),
        stage2_loop sqrt cbn prec a j = some st ∧
        stage2_iteration sqrt cbn prec a st j = some st' ∧
        stage2_loop sqrt cbn prec a (j + 1) = some st' ∧
        (st.errors_statistics.row? j = some (List.replicate 9 0) ∧
          st.points_statistics_X.row? j = some (List.replicate (n * n) 0) ∧
          st.points_statistics_Omega.row? j = some (List.replicate (n * n) 0)) ∧
        (st'.errors_statistics.row? j
            = some (errors_row (iteration_values sqrt a hn st'.new_X st'.new_Omega)) ∧
          st'.points_statistics_X.row? j = some (as_row st'.final_X) ∧
          st'.points_statistics_Omega.row? j = some (as_row st'.final_Omega)) ∧
        (∀ i, i ≠ j →
          st'.errors_statistics.row? i = st.errors_statistics.row? i ∧
          st'.points_statistics_X.row? i = st.points_statistics_X.row? i ∧
          st'.points_statistics_Omega.row? i = st.points_statistics_Omega.row? i) ∧
        (res.errors_statistics.row? j = st'.errors_statistics.row? j ∧
          res.points_statistics_X.row? j = st'.points_statistics_X.row? j ∧
          res.points_statistics_Omega.row? j = st'.points_statistics_Omega.row? j) := by
  obtain ⟨fin, hfin, rfl⟩ := derivative_stage2_eq_some hres
  obtain ⟨s1, s2, s3, _⟩ := stage2_loop_invariant a.iterations fin hfin
  rw [hct] at s2 s3
  refine ⟨s1, s2, s3, ?_⟩
  intro j hj
  obtain ⟨st', hst'⟩ := stage2_loop_prefix a.iterations fin hfin (j + 1) (by omega)
  obtain ⟨st, hst, hit⟩ := stage2_loop_succ_some hst'
  obtain ⟨u1, u2, u3⟩ := stage2_loop_rows_unwritten j st hst j le_rfl hj
  rw [hct] at u2 u3
  obtain ⟨w, hn, hw, w1, w2, w3⟩ := stage2_loop_rows (j + 1) st' hst' j (by omega)
  rw [hst'] at hw
  obtain rfl := Option.some.inj hw
  obtain ⟨w', hn', hw', f1, f2, f3⟩ := stage2_loop_rows a.iterations fin hfin j hj
  rw [hst'] at hw'
  obtain rfl := Option.some.inj hw'
  exact ⟨st, st', hn, hst, hit, hst', ⟨u1, u2, u3⟩, ⟨w1, w2, w3⟩,
    fun i hi => stage2_iteration_rows_other hit i hi,
    ⟨f1.trans w1.symm, f2.trans w2.symm, f3.trans w3.symm⟩⟩

theorem stage2_tables_shape_witness :
    ∃ res, derivative_stage2 Rat.sqrt id 0 scaffold_args = some res ∧
      res.errors_statistics.HasShape 3 9 ∧ res.points_statistics_X.HasShape 3 4 ∧
      res.points_statistics_Omega.HasShape 3 4 := by
  obtain ⟨res, hres⟩ := scaffold_returns
  obtain ⟨h1, h2, h3, _⟩ := stage2_tables_shape Rat.sqrt id 0 scaffold_args res hres rfl
  exact ⟨res, hres, h1, h2, h3⟩

/-- C8: whenever the call returns, `new_D_h = new_D_w * (N / M)` entrywise;
the relation holds at loop entry and after every pass. -/
theorem returned_D_h_eq {n q p : ℕ} (sqrt : α → α)
    (cbn : Matrix (Fin n) (Fin n) α → Matrix (Fin n) (Fin n) α) (prec : α)
    (a : Stage2Args α n q p) (res : Stage2Result α n)
    (hres : derivative_stage2 sqrt cbn prec a = some res) :
    (∀ i, res.new_D_h i = res.new_D_w i * (a.N / a.M)) ∧
      ∀ k, k ≤ a.iterations → ∃ st, stage2_loop sqrt cbn prec a k = some st ∧
        ∀ i, st.new_D_h i = st.new_D_w i * (a.N / a.M) := by
  obtain ⟨fin, hfin, rfl⟩ := derivative_stage2_eq_some hres
  refine ⟨(stage2_loop_invariant a.iterations fin hfin).2.2.2, ?_⟩
  intro k hk
  obtain ⟨st, hst⟩ := stage2_loop_prefix a.iterations fin hfin k hk
  exact ⟨st, hst, (stage2_loop_invariant k st hst).2.2.2⟩

theorem returned_D_h_eq_witness :
    ∃ res, derivative_stage2 Rat.sqrt id 0 scaffold_args = some res ∧
      ∀ i, res.new_D_h i = res.new_D_w i * (scaffold_args.N / scaffold_args.M) := by
  obtain ⟨res, hres⟩ := scaffold_returns
  exact ⟨res, hres, (returned_D_h_eq Rat.sqrt id 0 scaffold_args res hres).1⟩

/-- C9: singular inversion is fatal.  If in some pass `i < iterations` the
updated tilde-`X` (step c) or the updated tilde-`Omega` (step g) has
determinant zero, the call ends with an error and returns no record. -/
theorem singular_inversion_is_fatal {n q p : ℕ} (sqrt : α → α)
    (cbn : Matrix (Fin n) (Fin n) α → Matrix (Fin n) (Fin n) α) (prec : α)
    (a : Stage2Args α n q p) (i : ℕ) (hi : i < a.iterations) (st : LoopState α n)
    (hst : stage2_loop sqrt cbn prec a i = some st)
    (hsing : (update_X sqrt cbn prec a st.new_X).det = 0 ∨
      (update_Omega sqrt cbn prec a (update_X sqrt cbn prec a st.new_X)⁻¹).det = 0) :
    derivative_stage2 sqrt cbn prec a = none := by
  cases hres : derivative_stage2 sqrt cbn prec a with
  | none => rfl
  | some res =>
    exfalso
    obtain ⟨fin, hfin, _⟩ := derivative_stage2_eq_some hres
    obtain ⟨st', hst'⟩ := stage2_loop_prefix a.iterations fin hfin (i + 1) (by omega)
    rw [stage2_loop_succ, hst, Option.some_bind,
      stage2_iteration_eq_none_of_singular st i hsing] at hst'
    exact Option.noConfusion hst'

theorem singular_init_new_X :
    (stage2_init Rat.sqrt singular_args).new_X = !![1 / 2, 2; 1, 4] := by
  ext i j
  fin_cases i <;> fin_cases j <;>
    norm_num [stage2_init, singular_args, scaffold_args, sqrt_Sigma, Matrix.mul_apply,
      Fin.sum_univ_two, Matrix.diagonal, rat_sqrt_four, rat_sqrt_one]

theorem singular_inversion_is_fatal_witness :
    derivative_stage2 Rat.sqrt id 0 singular_args = none :=
  singular_inversion_is_fatal Rat.sqrt id 0 singular_args 0 (by decide)
    (stage2_init Rat.sqrt singular_args) (stage2_loop_zero Rat.sqrt id 0 singular_args)
    (Or.inl (by
      rw [update_X_of_coef_zero Rat.sqrt id 0 singular_args rfl, singular_init_new_X,
        Matrix.det_fin_two_of]
      norm_num))

theorem negcount_init_new_X :
    (stage2_init Rat.sqrt negcount_args).new_X = !![3 / 2, -2; 1 / 2, 1] := by
  ext i j
  fin_cases i <;> fin_cases j <;>
    norm_num [stage2_init, negcount_args, scaffold_args, sqrt_Sigma, Matrix.mul_apply,
      Fin.sum_univ_two, Matrix.diagonal, rat_sqrt_four, rat_sqrt_one]

/-- C7 at the input `negcount_args` (positive `D_w` and singular values,
`coef_der_X = coef_der_Omega = 0`): `X * R` has no strictly negative entry,
the call returns, and column 6 of every row of `errors_statistics` is `1`,
the number of strictly negative entries of `tilde-X * R`. -/
theorem negcount_column_counts_tilde_projection :
    getNegative (negcount_args.X * negcount_args.R) = 0 ∧
      ∃ res, derivative_stage2 Rat.sqrt id 0 negcount_args = some res ∧
        ∀ i, i < negcount_args.iterations →
          (res.errors_statistics.row? i).bind (fun r => r[6]?) = some 1 := by
  constructor
  · unfold getNegative
    simp only [Fin.sum_univ_two]
    norm_num [negcount_args, scaffold_args, Matrix.mul_apply, Fin.sum_univ_two]
  · have hdet : (stage2_init Rat.sqrt negcount_args).new_X.det ≠ 0 := by
      rw [negcount_init_new_X, Matrix.det_fin_two_of]
      norm_num
    obtain ⟨res, hres, _, hrows⟩ := zero_step_result Rat.sqrt id 0 negcount_args rfl rfl
      (by decide) rfl hdet
    refine ⟨res, hres, fun i hi => ?_⟩
    rw [(hrows i hi).1]
    have hneg : getNegative ((stage2_init Rat.sqrt negcount_args).new_X * negcount_args.R)
        = 1 := by
      rw [negcount_init_new_X]
      unfold getNegative
      simp only [Fin.sum_univ_two]
      norm_num [negcount_args, scaffold_args, Matrix.mul_apply, Fin.sum_univ_two]
    simp [errors_row, iteration_values, hneg]

theorem stage2_loop_eq_none {n q p : ℕ} {sqrt : α → α}
    {cbn : Matrix (Fin n) (Fin n) α → Matrix (Fin n) (Fin n) α} {prec : α}
    {a : Stage2Args α n q p} :
    ∀ k, stage2_loop sqrt cbn prec a k = none →
      ∃ i st, i < k ∧ stage2_loop sqrt cbn prec a i = some st ∧
        stage2_iteration sqrt cbn prec a st i = none := by
  intro k
  induction k with
  | zero =>
    intro h
    rw [stage2_loop_zero] at h
    exact Option.noConfusion h
  | succ k ih =>
    intro h
    cases hk : stage2_loop sqrt cbn prec a k with
    | none =>
      obtain ⟨i, st, hi, hst, hit⟩ := ih hk
      exact ⟨i, st, by omega, hst, hit⟩
    | some st =>
      rw [stage2_loop_succ, hk, Option.some_bind] at h
      exact ⟨k, st, by omega, hk, h⟩

/-- When a pass fails: exactly when the matrices have no column, the snapshot
rows do not fit the tables, or one of the two inversions meets a singular
matrix. -/
theorem stage2_iteration_eq_none_iff {n q p : ℕ} {sqrt : α → α}
    {cbn : Matrix (Fin n) (Fin n) α → Matrix (Fin n) (Fin n) α} {prec : α}
    {a : Stage2Args α n q p} {i : ℕ} {st : LoopState α n} (hi : i < a.iterations)
    (hst : stage2_loop sqrt cbn prec a i = some st) :
    stage2_iteration sqrt cbn prec a st i = none ↔
      (n = 0 ∨ a.cell_types * a.cell_types ≠ n * n ∨
        (update_X sqrt cbn prec a st.new_X).det = 0 ∨
        (update_Omega sqrt cbn prec a (update_X sqrt cbn prec a st.new_X)⁻¹).det = 0) := by
  obtain ⟨s1, s2, s3, _⟩ := stage2_loop_invariant i st hst
  constructor
  · intro hnone
    by_contra hcon
    push_neg at hcon
    obtain ⟨hn, hc, d1, d2⟩ := hcon
    have hit := @stage2_iteration_of_inv α _ n q p sqrt cbn prec a
      st i (Nat.pos_of_ne_zero hn) _ _ (arma_inv_of_det_ne_zero d1)
      (arma_inv_of_det_ne_zero d2)
    obtain ⟨st', hrec⟩ := record_iteration_isSome st i
      (update_Omega sqrt cbn prec a (update_X sqrt cbn prec a st.new_X)⁻¹)⁻¹
      (update_Omega sqrt cbn prec a (update_X sqrt cbn prec a st.new_X)⁻¹)
      (iteration_values sqrt a (Nat.pos_of_ne_zero hn)
        (update_Omega sqrt cbn prec a (update_X sqrt cbn prec a st.new_X)⁻¹)⁻¹
        (update_Omega sqrt cbn prec a (update_X sqrt cbn prec a st.new_X)⁻¹)) hi hc s1 s2 s3
    rw [hit, hrec] at hnone
    exact Option.noConfusion hnone
  · intro h
    cases hit : stage2_iteration sqrt cbn prec a st i with
    | none => rfl
    | some st' =>
      exfalso
      obtain ⟨hn, Om, X', h1, h2, hrec⟩ := stage2_iteration_eq_some hit
      obtain ⟨_, r2, _⟩ := record_iteration_eq_some hrec
      obtain ⟨_, hlen, _⟩ := Table.setRow_eq_some r2
      rw [as_row_length, s2.2.1] at hlen
      obtain ⟨d1, rfl⟩ := arma_inv_eq_some h1
      obtain ⟨d2, _⟩ := arma_inv_eq_some h2
      rcases h with h | h | h | h
      · omega
      · exact h hlen.symm
      · exact d1 h
      · exact d2 h

/-- C10 (amended): the call makes no test on the scale values.  It ends with
an error exactly when some pass `i < iterations` is reached in which the
matrices have no column, `cell_types * cell_types ≠ n * n`, the updated
tilde-`X` is singular or the updated tilde-`Omega` is singular; in every other
case it returns a record, whatever the signs of the entries of `D_w`. -/
theorem stage2_fails_iff {n q p : ℕ} (sqrt : α → α)
    (cbn : Matrix (Fin n) (Fin n) α → Matrix (Fin n) (Fin n) α) (prec : α)
    (a : Stage2Args α n q p) :
    derivative_stage2 sqrt cbn prec a = none ↔
      ∃ i st, i < a.iterations ∧ stage2_loop sqrt cbn prec a i = some st ∧
        (n = 0 ∨ a.cell_types * a.cell_types ≠ n * n ∨
          (update_X sqrt cbn prec a st.new_X).det = 0 ∨
          (update_Omega sqrt cbn prec a (update_X sqrt cbn prec a st.new_X)⁻¹).det = 0) := by
  constructor
  · intro h
    have hloop : stage2_loop sqrt cbn prec a a.iterations = none := by
      cases hl : stage2_loop sqrt cbn prec a a.iterations with
      | none => rfl
      | some st => simp [derivative_stage2, hl] at h
    obtain ⟨i, st, hi, hst, hit⟩ := stage2_loop_eq_none a.iterations hloop
    exact ⟨i, st, hi, hst, (stage2_iteration_eq_none_iff hi hst).mp hit⟩
  · rintro ⟨i, st, hi, hst, hc⟩
    have hit := (stage2_iteration_eq_none_iff hi hst).mpr hc
    cases hres : derivative_stage2 sqrt cbn prec a with
    | none => rfl
    | some res =>
      exfalso
      obtain ⟨fin, hfin, _⟩ := derivative_stage2_eq_some hres
      obtain ⟨st', hst'⟩ := stage2_loop_prefix a.iterations fin hfin (i + 1) (by omega)
      rw [stage2_loop_succ, hst, Option.some_bind, hit] at hst'
      exact Option.noConfusion hst'

theorem zero_scale_init_new_X :
    (stage2_init Rat.sqrt zero_scale_args).new_X = !![0, 1; 1, 0] := by
  ext i j
  fin_cases i <;> fin_cases j <;>
    norm_num [stage2_init, zero_scale_args, scaffold_args, sqrt_Sigma, Matrix.mul_apply,
      Fin.sum_univ_two, Matrix.diagonal, rat_sqrt_one]

/-- C10 fails at `zero_scale_args`: the scale vector carried at the end of the
single iteration has the entry `new_D_w 0 = 0`, and the call returns a
record. -/
theorem zero_scale_is_returned :
    ∃ res, derivative_stage2 Rat.sqrt id 0 zero_scale_args = some res ∧
      res.new_D_w 0 = 0 ∧ ¬ (∀ i, 0 < res.new_D_w i) := by
  have hdet : (stage2_init Rat.sqrt zero_scale_args).new_X.det ≠ 0 := by
    rw [zero_scale_init_new_X, Matrix.det_fin_two_of]
    norm_num
  obtain ⟨res, hres, hfin, _⟩ := zero_step_result Rat.sqrt id 0 zero_scale_args rfl rfl
    (by decide) rfl hdet
  obtain ⟨_, _, hD⟩ := hfin (by decide)
  have h0 : res.new_D_w 0 = 0 := by
    rw [hD]
    simp [iteration_values, zero_scale_init_new_X]
  exact ⟨res, hres, h0, fun h => absurd (h 0) (by rw [h0]; exact lt_irrefl 0)⟩

/-! ### Relations between the primitives -/

/-- C17: at threshold zero the two hinge sub-gradients are transposes of each
other: `hinge_der_basis_C__ W S 0` is the transpose of
`hinge_der_proportions_C__ Wᵀ S q`, for `W : p × n`, `S : n × p` and any `q`. -/
theorem hinge_der_basis_eq_transpose_proportions {p n : ℕ} (W : Matrix (Fin p) (Fin n) α)
    (S : Matrix (Fin n) (Fin p) α) (q : α) :
    hinge_der_basis_C__ W S 0 = (hinge_der_proportions_C__ Wᵀ S q)ᵀ := by
  ext k j
  rw [Matrix.transpose_apply, hinge_der_proportions_apply]
  simp only [hinge_der_basis_C__, Matrix.of_apply, Matrix.transpose_apply, neg_zero]
  rw [Finset.sum_filter]

theorem norm_fro_sq_nonneg {m n : ℕ} (sqrt : α → α) (A : Matrix (Fin m) (Fin n) α) :
    0 ≤ norm_fro sqrt A ^ 2 := sq_nonneg _

theorem hinge_nonneg {m n : ℕ} (M : Matrix (Fin m) (Fin n) α) : 0 ≤ hinge_C__ M := by
  rw [hinge_eq_sum]
  refine Finset.sum_nonneg fun i _ => Finset.sum_nonneg fun j _ => ?_
  split_ifs with h
  · exact (neg_pos.mpr h).le
  · exact le_rfl

/-- A matrix whose Frobenius norm is zero is zero, for a square root that
vanishes only at zero on the non-negative numbers. -/
theorem eq_zero_of_norm_fro_eq_zero {m n : ℕ} (sqrt : α → α)
    (hsqrt : ∀ x, 0 ≤ x → sqrt x = 0 → x = 0) (A : Matrix (Fin m) (Fin n) α)
    (h : norm_fro sqrt A = 0) : A = 0 := by
  have hnn : ∀ i, 0 ≤ ∑ j, A i j ^ 2 := fun i => Finset.sum_nonneg fun j _ => sq_nonneg _
  have hss : ∑ i, ∑ j, A i j ^ 2 = 0 :=
    hsqrt _ (Finset.sum_nonneg fun i _ => hnn i) h
  ext i j
  have h1 := (Finset.sum_eq_zero_iff_of_nonneg fun i _ => hnn i).mp hss i (Finset.mem_univ i)
  have h2 := (Finset.sum_eq_zero_iff_of_nonneg fun j _ => sq_nonneg (A i j)).mp h1 j
    (Finset.mem_univ j)
  simpa using pow_eq_zero_iff (two_ne_zero) |>.mp h2

/-- C18: under non-negative weights `coef_ * coef_hinge_H`,
`coef_ * coef_hinge_W`, `coef_pos_D_h`, `coef_pos_D_w`, every term returned by
`calcErrors` is non-negative and `total_error ≥ deconv_error ≥ 0`; and, for a
square root that vanishes only at zero, `total_error = 0` forces
`SVRt = Omega * diag(D_w) * X`. -/
theorem calcErrors_nonneg {a n b q p : ℕ} (sqrt : α → α)
    (X : Matrix (Fin n) (Fin b) α) (Omega : Matrix (Fin a) (Fin n) α)
    (D_w D_h : Fin n → α) (SVRt : Matrix (Fin a) (Fin b) α)
    (R : Matrix (Fin b) (Fin q) α) (S : Matrix (Fin a) (Fin p) α)
    (coef_ cX cO coef_hinge_H coef_hinge_W coef_pos_D_h coef_pos_D_w : α)
    (hH : 0 ≤ coef_ * coef_hinge_H) (hW : 0 ≤ coef_ * coef_hinge_W)
    (hDh : 0 ≤ coef_pos_D_h) (hDw : 0 ≤ coef_pos_D_w)
    (hsqrt : ∀ x, 0 ≤ x → sqrt x = 0 → x = 0) :
    0 ≤ (calcErrors sqrt X Omega D_w D_h SVRt R S coef_ cX cO coef_hinge_H coef_hinge_W
        coef_pos_D_h coef_pos_D_w).deconv_error ∧
      0 ≤ (calcErrors sqrt X Omega D_w D_h SVRt R S coef_ cX cO coef_hinge_H coef_hinge_W
        coef_pos_D_h coef_pos_D_w).lambda_error ∧
      0 ≤ (calcErrors sqrt X Omega D_w D_h SVRt R S coef_ cX cO coef_hinge_H coef_hinge_W
        coef_pos_D_h coef_pos_D_w).beta_error ∧
      0 ≤ (calcErrors sqrt X Omega D_w D_h SVRt R S coef_ cX cO coef_hinge_H coef_hinge_W
        coef_pos_D_h coef_pos_D_w).D_h_error ∧
      0 ≤ (calcErrors sqrt X Omega D_w D_h SVRt R S coef_ cX cO coef_hinge_H coef_hinge_W
        coef_pos_D_h coef_pos_D_w).D_w_error ∧
      (calcErrors sqrt X Omega D_w D_h SVRt R S coef_ cX cO coef_hinge_H coef_hinge_W
        coef_pos_D_h coef_pos_D_w).deconv_error
        ≤ (calcErrors sqrt X Omega D_w D_h SVRt R S coef_ cX cO coef_hinge_H coef_hinge_W
          coef_pos_D_h coef_pos_D_w).total_error ∧
      ((calcErrors sqrt X Omega D_w D_h SVRt R S coef_ cX cO coef_hinge_H coef_hinge_W
        coef_pos_D_h coef_pos_D_w).total_error = 0 →
          SVRt = Omega * Matrix.diagonal D_w * X) := by
  have e1 : 0 ≤ norm_fro sqrt (SVRt - Omega * Matrix.diagonal D_w * X) ^ 2 := sq_nonneg _
  have e2 : 0 ≤ coef_ * coef_hinge_H * hinge_C__ (X * R) :=
    mul_nonneg hH (hinge_nonneg _)
  have e3 : 0 ≤ coef_ * coef_hinge_W * hinge_C__ (Sᵀ * Omega) :=
    mul_nonneg hW (hinge_nonneg _)
  have e4 : 0 ≤ coef_pos_D_h * norm_fro_vec sqrt (Xᵀ.mulVec D_h - sum_rows R) ^ 2 :=
    mul_nonneg hDh (sq_nonneg _)
  have e5 : 0 ≤ coef_pos_D_w * norm_fro_vec sqrt (Omega.mulVec D_w - sum_rows S) ^ 2 :=
    mul_nonneg hDw (sq_nonneg _)
  refine ⟨e1, e2, e3, e4, e5, ?_, ?_⟩
  · show norm_fro sqrt (SVRt - Omega * Matrix.diagonal D_w * X) ^ 2
      ≤ norm_fro sqrt (SVRt - Omega * Matrix.diagonal D_w * X) ^ 2
        + coef_ * coef_hinge_H * hinge_C__ (X * R)
        + coef_ * coef_hinge_W * hinge_C__ (Sᵀ * Omega)
        + coef_pos_D_h * norm_fro_vec sqrt (Xᵀ.mulVec D_h - sum_rows R) ^ 2
        + coef_pos_D_w * norm_fro_vec sqrt (Omega.mulVec D_w - sum_rows S) ^ 2
    linarith
  · intro htot
    have htot' : norm_fro sqrt (SVRt - Omega * Matrix.diagonal D_w * X) ^ 2
        + coef_ * coef_hinge_H * hinge_C__ (X * R)
        + coef_ * coef_hinge_W * hinge_C__ (Sᵀ * Omega)
        + coef_pos_D_h * norm_fro_vec sqrt (Xᵀ.mulVec D_h - sum_rows R) ^ 2
        + coef_pos_D_w * norm_fro_vec sqrt (Omega.mulVec D_w - sum_rows S) ^ 2 = 0 := htot
    have hd : norm_fro sqrt (SVRt - Omega * Matrix.diagonal D_w * X) ^ 2 = 0 := by
      linarith
    have hz := eq_zero_of_norm_fro_eq_zero sqrt hsqrt _ (pow_eq_zero_iff two_ne_zero |>.mp hd)
    exact sub_eq_zero.mp hz

theorem calcErrors_nonneg_witness :
    0 ≤ (calcErrors Real.sqrt (1 : Matrix (Fin 2) (Fin 2) ℝ) (1 : Matrix (Fin 2) (Fin 2) ℝ)
        ![1, 2] ![1, 2] (1 : Matrix (Fin 2) (Fin 2) ℝ) (1 : Matrix (Fin 2) (Fin 2) ℝ)
        (1 : Matrix (Fin 2) (Fin 2) ℝ) 1 0 0 2 3 1 1).deconv_error ∧
      (calcErrors Real.sqrt (1 : Matrix (Fin 2) (Fin 2) ℝ) (1 : Matrix (Fin 2) (Fin 2) ℝ)
        ![1, 2] ![1, 2] (1 : Matrix (Fin 2) (Fin 2) ℝ) (1 : Matrix (Fin 2) (Fin 2) ℝ)
        (1 : Matrix (Fin 2) (Fin 2) ℝ) 1 0 0 2 3 1 1).deconv_error
        ≤ (calcErrors Real.sqrt (1 : Matrix (Fin 2) (Fin 2) ℝ)
          (1 : Matrix (Fin 2) (Fin 2) ℝ) ![1, 2] ![1, 2] (1 : Matrix (Fin 2) (Fin 2) ℝ)
          (1 : Matrix (Fin 2) (Fin 2) ℝ) (1 : Matrix (Fin 2) (Fin 2) ℝ)
          1 0 0 2 3 1 1).total_error :=
  have h := calcErrors_nonneg Real.sqrt (1 : Matrix (Fin 2) (Fin 2) ℝ)
    (1 : Matrix (Fin 2) (Fin 2) ℝ) ![1, 2] ![1, 2] (1 : Matrix (Fin 2) (Fin 2) ℝ)
    (1 : Matrix (Fin 2) (Fin 2) ℝ) (1 : Matrix (Fin 2) (Fin 2) ℝ) 1 0 0 2 3 1 1
    (by norm_num) (by norm_num) (by norm_num) (by norm_num)
    (fun x hx h0 => (Real.sqrt_eq_zero hx).mp h0)
  ⟨h.1, h.2.2.2.2.2.1⟩

/-! ### The initial `Omega` -/

theorem stage2_iteration_with_Omega {n q p : ℕ} (sqrt : α → α)
    (cbn : Matrix (Fin n) (Fin n) α → Matrix (Fin n) (Fin n) α) (prec : α)
    (a : Stage2Args α n q p) (Om : Matrix (Fin n) (Fin n) α) {st st' : LoopState α n}
    (hX : st'.new_X = st.new_X) (hE : st'.errors_statistics = st.errors_statistics)
    (hPX : st'.points_statistics_X = st.points_statistics_X)
    (hPO : st'.points_statistics_Omega = st.points_statistics_Omega) (k : ℕ) :
    stage2_iteration sqrt cbn prec (a.with_Omega Om) st' k
      = stage2_iteration sqrt cbn prec a st k := by
  unfold stage2_iteration record_iteration
  rw [hX, hE, hPX, hPO]
  rfl

theorem stage2_loop_with_Omega {n q p : ℕ} (sqrt : α → α)
    (cbn : Matrix (Fin n) (Fin n) α → Matrix (Fin n) (Fin n) α) (prec : α)
    (a : Stage2Args α n q p) (Om : Matrix (Fin n) (Fin n) α) :
    ∀ k, stage2_loop sqrt cbn prec (a.with_Omega Om) (k + 1)
      = stage2_loop sqrt cbn prec a (k + 1) := by
  intro k
  induction k with
  | zero =>
    rw [stage2_loop_succ, stage2_loop_succ, stage2_loop_zero, stage2_loop_zero,
      Option.some_bind, Option.some_bind]
    exact stage2_iteration_with_Omega sqrt cbn prec a Om rfl rfl rfl rfl 0
  | succ k ih =>
    rw [stage2_loop_succ, stage2_loop_succ sqrt cbn prec a, ih]
    cases stage2_loop sqrt cbn prec a (k + 1) with
    | none => rfl
    | some st =>
      rw [Option.some_bind, Option.some_bind]
      exact stage2_iteration_with_Omega sqrt cbn prec a Om rfl rfl rfl rfl (k + 1)

/-- C16: for `iterations ≥ 1` the initial `Omega` does not influence the call:
replacing it by any other matrix of the same shape leaves the outcome (the
whole returned record, or the failure) unchanged. -/
theorem initial_Omega_irrelevant {n q p : ℕ} (sqrt : α → α)
    (cbn : Matrix (Fin n) (Fin n) α → Matrix (Fin n) (Fin n) α) (prec : α)
    (a : Stage2Args α n q p) (Om : Matrix (Fin n) (Fin n) α) (hk : 1 ≤ a.iterations) :
    derivative_stage2 sqrt cbn prec (a.with_Omega Om) = derivative_stage2 sqrt cbn prec a := by
  unfold derivative_stage2
  have hit : (a.with_Omega Om).iterations = a.iterations := rfl
  obtain ⟨k, hk'⟩ : ∃ k, a.iterations = k + 1 := ⟨a.iterations - 1, by omega⟩
  rw [hit, hk', stage2_loop_with_Omega]

theorem initial_Omega_irrelevant_witness :
    derivative_stage2 Rat.sqrt id 0 (scaffold_args.with_Omega !![5, 7; 0, -3])
      = derivative_stage2 Rat.sqrt id 0 scaffold_args :=
  initial_Omega_irrelevant Rat.sqrt id 0 scaffold_args !![5, 7; 0, -3] (by decide)

/-! ### The state left by a pass -/

theorem record_iteration_scale_fields {n : ℕ} {st st' : LoopState α n} {itr_ : ℕ}
    {X Om : Matrix (Fin n) (Fin n) α} {v : IterationValues α n}
    (h : record_iteration st itr_ X Om v = some st') :
    st'.new_D_w_x = v.new_D_w_x ∧ st'.new_D_w_x_sqrt = v.new_D_w_x_sqrt ∧
      st'.new_D_w_omega = v.new_D_w_omega ∧
      st'.new_D_w_omega_sqrt = v.new_D_w_omega_sqrt := by
  unfold record_iteration at h
  cases h1 : st.errors_statistics.setRow itr_ (errors_row v) with
  | none => simp [h1] at h
  | some e =>
    cases h2 : st.points_statistics_X.setRow itr_ (as_row v.final_X) with
    | none => simp [h1, h2] at h
    | some pX =>
      cases h3 : st.points_statistics_Omega.setRow itr_ (as_row v.final_Omega) with
      | none => simp [h1, h2, h3] at h
      | some pO =>
        simp only [h1, h2, h3, Option.some.injEq] at h
        subst h
        exact ⟨rfl, rfl, rfl, rfl⟩

/-- After at least one pass, tilde-`X` and tilde-`Omega` are inverse to each
other and every other carried value is the one `iteration_values` derives
from them. -/
theorem stage2_loop_final {n q p : ℕ} {sqrt : α → α}
    {cbn : Matrix (Fin n) (Fin n) α → Matrix (Fin n) (Fin n) α} {prec : α}
    {a : Stage2Args α n q p} {k : ℕ} {st : LoopState α n}
    (h : stage2_loop sqrt cbn prec a (k + 1) = some st) :
    ∃ hn : 0 < n,
      st.new_X * st.new_Omega = 1 ∧ st.new_Omega * st.new_X = 1 ∧
      st.final_X = (iteration_values sqrt a hn st.new_X st.new_Omega).final_X ∧
      st.final_Omega = (iteration_values sqrt a hn st.new_X st.new_Omega).final_Omega ∧
      st.new_D_w = (iteration_values sqrt a hn st.new_X st.new_Omega).new_D_w ∧
      st.new_D_h = (iteration_values sqrt a hn st.new_X st.new_Omega).new_D_h ∧
      st.new_D_w_x = (iteration_values sqrt a hn st.new_X st.new_Omega).new_D_w_x ∧
      st.new_D_w_omega
        = (iteration_values sqrt a hn st.new_X st.new_Omega).new_D_w_omega := by
  obtain ⟨st0, _, hit⟩ := stage2_loop_succ_some h
  obtain ⟨hn, Om, X', _, h2, hrec⟩ := stage2_iteration_eq_some hit
  obtain ⟨_, _, _, rX, rO, rfX, rfO, rD, rH⟩ := record_iteration_eq_some hrec
  obtain ⟨sx, _, so, _⟩ := record_iteration_scale_fields hrec
  obtain ⟨d2, hX'⟩ := arma_inv_eq_some h2
  have hu : IsUnit (update_Omega sqrt cbn prec a Om).det := isUnit_iff_ne_zero.mpr d2
  refine ⟨hn, ?_, ?_, ?_, ?_, ?_, ?_, ?_, ?_⟩
  · rw [rX, rO, hX']
    exact Matrix.nonsing_inv_mul _ hu
  · rw [rX, rO, hX']
    exact Matrix.mul_nonsing_inv _ hu
  · rw [rfX, rX, rO]
  · rw [rfO, rX, rO]
  · rw [rD, rX, rO]
  · rw [rH, rX, rO]
  · rw [sx, rX, rO]
  · rw [so, rX, rO]

/-- C19: after a successful call with `iterations = k ≥ 1`, row `k - 1` of
`points_statistics_X` is the flattened returned `new_X`, row `k - 1` of
`points_statistics_Omega` is the flattened returned `new_Omega`, the first six
entries of row `k - 1` of `errors_statistics` are the six values of
`calcErrors` on the returned `new_X`, `new_Omega`, `new_D_w`, `new_D_h` (with
`coef_ = 1`), and its ninth entry is `sum(new_D_w) / M`. -/
theorem last_rows_describe_result {n q p : ℕ} (sqrt : α → α)
    (cbn : Matrix (Fin n) (Fin n) α → Matrix (Fin n) (Fin n) α) (prec : α)
    (a : Stage2Args α n q p) (res : Stage2Result α n)
    (hres : derivative_stage2 sqrt cbn prec a = some res) (hk : 1 ≤ a.iterations) :
    res.points_statistics_X.row? (a.iterations - 1) = some (as_row res.new_X) ∧
      res.points_statistics_Omega.row? (a.iterations - 1) = some (as_row res.new_Omega) ∧
      ∃ row, res.errors_statistics.row? (a.iterations - 1) = some row ∧
        row.length = 9 ∧
        row.take 6 = (calcErrors sqrt res.new_X res.new_Omega res.new_D_w res.new_D_h
          a.SVRt a.R a.S 1 a.coef_der_X a.coef_der_Omega a.coef_hinge_H a.coef_hinge_W
          a.coef_pos_D_h a.coef_pos_D_w).toList ∧
        row[8]? = some ((∑ i, res.new_D_w i) / a.M) := by
  obtain ⟨fin, hfin, rfl⟩ := derivative_stage2_eq_some hres
  obtain ⟨st', hn, hst', e1, e2, e3⟩ :=
    stage2_loop_rows a.iterations fin hfin (a.iterations - 1) (by omega)
  have hidx : a.iterations - 1 + 1 = a.iterations := by omega
  rw [hidx, hfin] at hst'
  obtain rfl := Option.some.inj hst'
  have hfin' : stage2_loop sqrt cbn prec a (a.iterations - 1 + 1) = some fin := by
    rw [hidx]
    exact hfin
  obtain ⟨hn', _, _, fX, fO, fD, fH, _, _⟩ := stage2_loop_final hfin'
  refine ⟨e2, e3, _, e1, rfl, ?_, ?_⟩
  · show _ = (calcErrors sqrt fin.final_X fin.final_Omega fin.new_D_w fin.new_D_h
      a.SVRt a.R a.S 1 a.coef_der_X a.coef_der_Omega a.coef_hinge_H a.coef_hinge_W
      a.coef_pos_D_h a.coef_pos_D_w).toList
    rw [fX, fO, fD, fH]
    rfl
  · show _ = some ((∑ i, fin.new_D_w i) / a.M)
    rw [fD]
    rfl

theorem last_rows_describe_result_witness :
    ∃ res, derivative_stage2 Rat.sqrt id 0 scaffold_args = some res ∧
      res.points_statistics_X.row? 2 = some (as_row res.new_X) ∧
      res.points_statistics_Omega.row? 2 = some (as_row res.new_Omega) := by
  obtain ⟨res, hres⟩ := scaffold_returns
  obtain ⟨h1, h2, _⟩ :=
    last_rows_describe_result Rat.sqrt id 0 scaffold_args res hres (by decide)
  exact ⟨res, hres, h1, h2⟩

/-! ### The carried scale vector -/

theorem scaffold_init_new_X_inv :
    (stage2_init Rat.sqrt scaffold_args).new_X⁻¹ = !![2, -2; -1, 2] := by
  rw [scaffold_init_new_X]
  apply Matrix.inv_eq_right_inv
  ext i j
  fin_cases i <;> fin_cases j <;> norm_num [Matrix.mul_apply, Fin.sum_univ_two]

/-- C13 fails at `scaffold_args`: after the three passes the carried
`new_D_w 0` is `16`, while the double square of the value re-derived from the
first row of tilde-`Omega` is `256`. -/
theorem carried_D_w_differs_from_Omega_row :
    ∃ st, stage2_loop Rat.sqrt id 0 scaffold_args 3 = some st ∧
      derivative_stage2 Rat.sqrt id 0 scaffold_args = some (stage2_result st) ∧
      st.new_D_w 0 = 16 ∧
      ((st.new_Omega 0 0 * sqrt_Sigma Rat.sqrt scaffold_args 0
        * Rat.sqrt scaffold_args.M) ^ 2) ^ 2 = 256 := by
  obtain ⟨st, hst, _, hfin⟩ := zero_step_loop Rat.sqrt id 0 scaffold_args rfl rfl
    (by decide) rfl scaffold_det_ne_zero 3 (by decide)
  obtain ⟨hO, _, _, hD⟩ := hfin (by decide)
  refine ⟨st, hst, ?_, ?_, ?_⟩
  · have : scaffold_args.iterations = 3 := rfl
    simp [derivative_stage2, this, hst]
  · rw [hD]
    simp only [iteration_values, scaffold_init_new_X]
    norm_num [sqrt_Sigma, scaffold_args, rat_sqrt_four, rat_sqrt_one]
  · rw [hO, scaffold_init_new_X_inv]
    norm_num [sqrt_Sigma, scaffold_args, rat_sqrt_four, rat_sqrt_one]

/-- C13 (amended): at the end of every pass the carried `new_D_w` is the double
square of the value derived from the first column of the post-update
tilde-`X`, `new_D_w i = ((X̃ i 0 * sqrt_Sigma 0 * sqrt N) ^ 2) ^ 2`, and
`new_D_h = new_D_w * (N / M)`; the vector derived from the first row of the
post-update tilde-`Omega` is kept in `new_D_w_omega` and is not carried into
`new_D_w`. -/
theorem carried_D_w_from_X_column {n q p : ℕ} (sqrt : α → α)
    (cbn : Matrix (Fin n) (Fin n) α → Matrix (Fin n) (Fin n) α) (prec : α)
    (a : Stage2Args α n q p) (k : ℕ) (st : LoopState α n)
    (hst : stage2_loop sqrt cbn prec a (k + 1) = some st) :
    ∃ hn : 0 < n,
      (∀ i, st.new_D_w i
        = ((st.new_X i ⟨0, hn⟩ * sqrt_Sigma sqrt a ⟨0, hn⟩ * sqrt a.N) ^ 2) ^ 2) ∧
      (∀ i, st.new_D_h i = st.new_D_w i * (a.N / a.M)) ∧
      (∀ i, st.new_D_w_omega i
        = (st.new_Omega ⟨0, hn⟩ i * sqrt_Sigma sqrt a ⟨0, hn⟩ * sqrt a.M) ^ 2) := by
  obtain ⟨hn, _, _, _, _, fD, _, _, fO⟩ := stage2_loop_final hst
  refine ⟨hn, ?_, (stage2_loop_invariant (k + 1) st hst).2.2.2, ?_⟩
  · intro i
    rw [fD]
    rfl
  · intro i
    rw [fO]
    rfl

theorem carried_D_w_from_X_column_witness :
    ∃ st, stage2_loop Rat.sqrt id 0 scaffold_args 1 = some st ∧
      ∃ hn : 0 < 2, ∀ i, st.new_D_w i
        = ((st.new_X i ⟨0, hn⟩ * sqrt_Sigma Rat.sqrt scaffold_args ⟨0, hn⟩
            * Rat.sqrt scaffold_args.N) ^ 2) ^ 2 := by
  obtain ⟨st, hst, _⟩ := zero_step_loop Rat.sqrt id 0 scaffold_args rfl rfl
    (by decide) rfl scaffold_det_ne_zero 1 (by decide)
  obtain ⟨hn, h, _⟩ := carried_D_w_from_X_column Rat.sqrt id 0 scaffold_args 0 st hst
  exact ⟨st, hst, hn, h⟩

/-! ### Mutual inversion -/

theorem diagonal_eq_one {n : ℕ} (d : Fin n → α) (h : ∀ i, d i = 1) :
    Matrix.diagonal d = 1 := by
  rw [← Matrix.diagonal_one]
  exact congrArg Matrix.diagonal (funext h)

/-- C12: in a successful call every pass leaves `Omega` the inverse of the
updated tilde-`X` after step c, and tilde-`X`, tilde-`Omega` inverse to each
other at its end; and for `iterations ≥ 1`, non-zero returned `new_D_w` and
singular values `Sigma i = SVRt i i ≠ 0` with `sqrt (Sigma i) ^ 2 = Sigma i`,
the returned record satisfies
`diag(new_D_w) * new_X * diag(1 / Sigma) * new_Omega * diag(new_D_w) = 1`. -/
theorem mutual_inversion {n q p : ℕ} (sqrt : α → α)
    (cbn : Matrix (Fin n) (Fin n) α → Matrix (Fin n) (Fin n) α) (prec : α)
    (a : Stage2Args α n q p) (res : Stage2Result α n)
    (hres : derivative_stage2 sqrt cbn prec a = some res) (hk : 1 ≤ a.iterations)
    (hsqrt : ∀ i, sqrt (a.SVRt i i) * sqrt (a.SVRt i i) = a.SVRt i i)
    (hSigma : ∀ i, a.SVRt i i ≠ 0) (hD : ∀ i, res.new_D_w i ≠ 0) :
    (∀ k, k < a.iterations → ∃ st st' Om,
        stage2_loop sqrt cbn prec a k = some st ∧
        stage2_loop sqrt cbn prec a (k + 1) = some st' ∧
        arma_inv (update_X sqrt cbn prec a st.new_X) = some Om ∧
        Om * update_X sqrt cbn prec a st.new_X = 1 ∧
        update_X sqrt cbn prec a st.new_X * Om = 1 ∧
        st'.new_X * st'.new_Omega = 1 ∧ st'.new_Omega * st'.new_X = 1) ∧
      Matrix.diagonal res.new_D_w * res.new_X
          * Matrix.diagonal (fun i => 1 / a.SVRt i i) * res.new_Omega
          * Matrix.diagonal res.new_D_w = 1 := by
  obtain ⟨fin, hfin, rfl⟩ := derivative_stage2_eq_some hres
  constructor
  · intro k hk'
    obtain ⟨st', hst'⟩ := stage2_loop_prefix a.iterations fin hfin (k + 1) (by omega)
    obtain ⟨st, hst, hit⟩ := stage2_loop_succ_some hst'
    obtain ⟨_, Om, X', h1, _, _⟩ := stage2_iteration_eq_some hit
    obtain ⟨d1, hOm⟩ := arma_inv_eq_some h1
    have hu : IsUnit (update_X sqrt cbn prec a st.new_X).det := isUnit_iff_ne_zero.mpr d1
    obtain ⟨_, i1, i2, _⟩ := stage2_loop_final hst'
    refine ⟨st, st', Om, hst, hst', h1, ?_, ?_, i1, i2⟩
    · rw [hOm]
      exact Matrix.nonsing_inv_mul _ hu
    · rw [hOm]
      exact Matrix.mul_nonsing_inv _ hu
  · obtain ⟨j, hj⟩ : ∃ j, a.iterations = j + 1 := ⟨a.iterations - 1, by omega⟩
    rw [hj] at hfin
    obtain ⟨hn, i1, _, fX, fO, fD, _, _, _⟩ := stage2_loop_final hfin
    have hD' : ∀ i, fin.new_D_w i ≠ 0 := hD
    show Matrix.diagonal fin.new_D_w * fin.final_X
        * Matrix.diagonal (fun i => 1 / a.SVRt i i) * fin.final_Omega
        * Matrix.diagonal fin.new_D_w = 1
    have eX : fin.final_X = Matrix.diagonal (fun i => 1 / fin.new_D_w i) * fin.new_X
        * Matrix.diagonal (sqrt_Sigma sqrt a) := by
      rw [fX]
      show Matrix.diagonal (fun i => 1 / (iteration_values sqrt a hn fin.new_X
        fin.new_Omega).new_D_w i) * fin.new_X * Matrix.diagonal (sqrt_Sigma sqrt a) = _
      rw [← fD]
    have eO : fin.final_Omega = Matrix.diagonal (sqrt_Sigma sqrt a) * fin.new_Omega
        * Matrix.diagonal (fun i => 1 / fin.new_D_w i) := by
      rw [fO]
      show Matrix.diagonal (sqrt_Sigma sqrt a) * fin.new_Omega
        * Matrix.diagonal (fun i => 1 / (iteration_values sqrt a hn fin.new_X
          fin.new_Omega).new_D_w i) = _
      rw [← fD]
    have h1 : Matrix.diagonal fin.new_D_w * Matrix.diagonal (fun i => 1 / fin.new_D_w i)
        = 1 := by
      rw [Matrix.diagonal_mul_diagonal]
      exact diagonal_eq_one _ fun i => mul_one_div_cancel (hD' i)
    have h2 : Matrix.diagonal (fun i => 1 / fin.new_D_w i) * Matrix.diagonal fin.new_D_w
        = 1 := by
      rw [Matrix.diagonal_mul_diagonal]
      exact diagonal_eq_one _ fun i => one_div_mul_cancel (hD' i)
    have h3 : Matrix.diagonal (sqrt_Sigma sqrt a)
        * Matrix.diagonal (fun i => 1 / a.SVRt i i)
        * Matrix.diagonal (sqrt_Sigma sqrt a) = 1 := by
      rw [Matrix.diagonal_mul_diagonal, Matrix.diagonal_mul_diagonal]
      refine diagonal_eq_one _ fun i => ?_
      show sqrt (a.SVRt i i) * (1 / a.SVRt i i) * sqrt (a.SVRt i i) = 1
      have hs := hsqrt i
      have hne := hSigma i
      field_simp
      linarith
    rw [eX, eO]
    calc Matrix.diagonal fin.new_D_w
          * (Matrix.diagonal (fun i => 1 / fin.new_D_w i) * fin.new_X
            * Matrix.diagonal (sqrt_Sigma sqrt a))
          * Matrix.diagonal (fun i => 1 / a.SVRt i i)
          * (Matrix.diagonal (sqrt_Sigma sqrt a) * fin.new_Omega
            * Matrix.diagonal (fun i => 1 / fin.new_D_w i))
          * Matrix.diagonal fin.new_D_w
        = (Matrix.diagonal fin.new_D_w * Matrix.diagonal (fun i => 1 / fin.new_D_w i))
            * fin.new_X
            * (Matrix.diagonal (sqrt_Sigma sqrt a)
              * Matrix.diagonal (fun i => 1 / a.SVRt i i)
              * Matrix.diagonal (sqrt_Sigma sqrt a))
            * fin.new_Omega
            * (Matrix.diagonal (fun i => 1 / fin.new_D_w i)
              * Matrix.diagonal fin.new_D_w) := by
          simp only [Matrix.mul_assoc]
      _ = 1 := by
          rw [h1, h2, h3, Matrix.one_mul, Matrix.mul_one, Matrix.mul_one, i1]

theorem mutual_inversion_witness :
    ∃ res, derivative_stage2 Rat.sqrt id 0 scaffold_args = some res ∧
      Matrix.diagonal res.new_D_w * res.new_X
          * Matrix.diagonal (fun i => 1 / scaffold_args.SVRt i i) * res.new_Omega
          * Matrix.diagonal res.new_D_w = 1 := by
  obtain ⟨res, hres, hfin, _⟩ := zero_step_result Rat.sqrt id 0 scaffold_args rfl rfl
    (by decide) rfl scaffold_det_ne_zero
  obtain ⟨_, _, hD⟩ := hfin (by decide)
  refine ⟨res, hres, (mutual_inversion Rat.sqrt id 0 scaffold_args res hres (by decide)
    ?_ ?_ ?_).2⟩
  · intro i
    fin_cases i <;> norm_num [scaffold_args, rat_sqrt_four, rat_sqrt_one]
  · intro i
    fin_cases i <;> norm_num [scaffold_args]
  · intro i
    rw [hD]
    simp only [iteration_values, scaffold_init_new_X]
    fin_cases i <;> norm_num [sqrt_Sigma, scaffold_args, rat_sqrt_four, rat_sqrt_one]

/-! ### Zero-step runs and the de-scaling -/

theorem consistent_init_new_X :
    (stage2_init Rat.sqrt consistent_args).new_X = !![1, 1; 1 / 2, 1] := by
  ext i j
  fin_cases i <;> fin_cases j <;>
    norm_num [stage2_init, consistent_args, scaffold_args, sqrt_Sigma, Matrix.mul_apply,
      Fin.sum_univ_two, Matrix.diagonal, rat_sqrt_four, rat_sqrt_one]

/-- C14 fails at `consistent_args`: the input satisfies
`Omega * diag(D_w) * X = SVRt` with `D_w = (1, 1)` and `Sigma = (4, 1)`, both
step coefficients are zero, the call returns, and the returned `new_X 0 0` is
`1 / 8` while `X 0 0 = 2`. -/
theorem zero_step_changes_X :
    consistent_args.Omega * Matrix.diagonal consistent_args.D_w * consistent_args.X
        = consistent_args.SVRt ∧
      ∃ res, derivative_stage2 Rat.sqrt id 0 consistent_args = some res ∧
        res.new_X 0 0 = 1 / 8 ∧ consistent_args.X 0 0 = 2 ∧ res.new_X ≠ consistent_args.X := by
  constructor
  · ext i j
    fin_cases i <;> fin_cases j <;>
      simp [consistent_args, scaffold_args, Matrix.mul_apply, Fin.sum_univ_two,
        Matrix.diagonal_apply, Matrix.vecMul_diagonal] <;> norm_num
  · have hdet : (stage2_init Rat.sqrt consistent_args).new_X.det ≠ 0 := by
      rw [consistent_init_new_X, Matrix.det_fin_two_of]
      norm_num
    obtain ⟨res, hres, hfin, _⟩ := zero_step_result Rat.sqrt id 0 consistent_args rfl rfl
      (by decide) rfl hdet
    obtain ⟨hX, _, _⟩ := hfin (by decide)
    have h00 : res.new_X 0 0 = 1 / 8 := by
      rw [hX]
      simp only [iteration_values, consistent_init_new_X]
      norm_num [sqrt_Sigma, consistent_args, scaffold_args, rat_sqrt_four, rat_sqrt_one,
        Matrix.mul_apply, Fin.sum_univ_two, Matrix.diagonal]
    have hx : consistent_args.X 0 0 = 2 := by
      norm_num [consistent_args, scaffold_args]
    refine ⟨res, hres, h00, hx, fun h => ?_⟩
    rw [h, hx] at h00
    norm_num at h00

/-- C14 (amended): a zero-step run returns the supplied factors when, in
addition to the hypotheses of the claim (`coef_der_X = coef_der_Omega = 0`,
diagonal `SVRt = Omega * diag(D_w) * X`, positive `D_w` and singular values on
which `sqrt` is a square root, `iterations ≥ 1`), the scale vector re-derived
from the rescaled `X` equals the square root of the supplied one:
`((X̃ i 0 * sqrt_Sigma 0 * sqrt N) ^ 2) ^ 2 = sqrt (D_w i)` for every `i`. -/
theorem zero_step_returns_inputs {n q p : ℕ} (sqrt : α → α)
    (cbn : Matrix (Fin n) (Fin n) α → Matrix (Fin n) (Fin n) α) (prec : α)
    (a : Stage2Args α n q p) (hX : a.coef_der_X = 0) (hO : a.coef_der_Omega = 0)
    (hn : 0 < n) (hct : a.cell_types = n) (hk : 1 ≤ a.iterations)
    (hdiag : a.SVRt = Matrix.diagonal (fun i => a.SVRt i i))
    (hcons : a.Omega * Matrix.diagonal a.D_w * a.X = a.SVRt)
    (hS : ∀ i, 0 < a.SVRt i i)
    (hsS : ∀ i, sqrt (a.SVRt i i) * sqrt (a.SVRt i i) = a.SVRt i i)
    (hD : ∀ i, 0 < a.D_w i)
    (hsD : ∀ i, sqrt (a.D_w i) * sqrt (a.D_w i) = a.D_w i)
    (hscale : ∀ i, (((stage2_init sqrt a).new_X i ⟨0, hn⟩ * sqrt_Sigma sqrt a ⟨0, hn⟩
      * sqrt a.N) ^ 2) ^ 2 = sqrt (a.D_w i)) :
    ∃ res, derivative_stage2 sqrt cbn prec a = some res ∧
      res.new_X = a.X ∧ res.new_Omega = a.Omega := by
  have hs : ∀ i, sqrt_Sigma sqrt a i ≠ 0 := by
    intro i h0
    have h1 := hsS i
    have h2 : sqrt (a.SVRt i i) = 0 := h0
    rw [h2, mul_zero] at h1
    exact (hS i).ne h1
  have hd : ∀ i, sqrt (a.D_w i) ≠ 0 := by
    intro i h0
    have h1 := hsD i
    rw [h0, mul_zero] at h1
    exact (hD i).ne h1
  have e1 : Matrix.diagonal (fun i => sqrt (a.D_w i))
      * Matrix.diagonal (fun i => sqrt (a.D_w i)) = Matrix.diagonal a.D_w := by
    rw [Matrix.diagonal_mul_diagonal]
    exact congrArg Matrix.diagonal (funext hsD)
  have e2 : Matrix.diagonal (fun i => 1 / sqrt_Sigma sqrt a i)
      * Matrix.diagonal (fun i => a.SVRt i i)
      * Matrix.diagonal (fun i => 1 / sqrt_Sigma sqrt a i) = 1 := by
    rw [Matrix.diagonal_mul_diagonal, Matrix.diagonal_mul_diagonal]
    refine diagonal_eq_one _ fun i => ?_
    have h1 : sqrt_Sigma sqrt a i * sqrt_Sigma sqrt a i = a.SVRt i i := hsS i
    have h2 := hs i
    rw [← h1]
    field_simp
  have e3 : Matrix.diagonal (fun i => 1 / sqrt (a.D_w i))
      * Matrix.diagonal (fun i => sqrt (a.D_w i)) = 1 := by
    rw [Matrix.diagonal_mul_diagonal]
    exact diagonal_eq_one _ fun i => one_div_mul_cancel (hd i)
  have e4 : Matrix.diagonal (fun i => sqrt (a.D_w i))
      * Matrix.diagonal (fun i => 1 / sqrt (a.D_w i)) = 1 := by
    rw [Matrix.diagonal_mul_diagonal]
    exact diagonal_eq_one _ fun i => mul_one_div_cancel (hd i)
  have e5 : Matrix.diagonal (fun i => 1 / sqrt_Sigma sqrt a i)
      * Matrix.diagonal (sqrt_Sigma sqrt a) = 1 := by
    rw [Matrix.diagonal_mul_diagonal]
    exact diagonal_eq_one _ fun i => one_div_mul_cancel (hs i)
  have e6 : Matrix.diagonal (sqrt_Sigma sqrt a)
      * Matrix.diagonal (fun i => 1 / sqrt_Sigma sqrt a i) = 1 := by
    rw [Matrix.diagonal_mul_diagonal]
    exact diagonal_eq_one _ fun i => mul_one_div_cancel (hs i)
  have hT : (stage2_init sqrt a).new_X = Matrix.diagonal (fun i => sqrt (a.D_w i)) * a.X
      * Matrix.diagonal (fun i => 1 / sqrt_Sigma sqrt a i) := rfl
  have hBT : (Matrix.diagonal (fun i => 1 / sqrt_Sigma sqrt a i) * a.Omega
      * Matrix.diagonal (fun i => sqrt (a.D_w i))) * (stage2_init sqrt a).new_X = 1 := by
    rw [hT]
    calc Matrix.diagonal (fun i => 1 / sqrt_Sigma sqrt a i) * a.Omega
          * Matrix.diagonal (fun i => sqrt (a.D_w i))
          * (Matrix.diagonal (fun i => sqrt (a.D_w i)) * a.X
            * Matrix.diagonal (fun i => 1 / sqrt_Sigma sqrt a i))
        = Matrix.diagonal (fun i => 1 / sqrt_Sigma sqrt a i)
            * (a.Omega * (Matrix.diagonal (fun i => sqrt (a.D_w i))
              * Matrix.diagonal (fun i => sqrt (a.D_w i))) * a.X)
            * Matrix.diagonal (fun i => 1 / sqrt_Sigma sqrt a i) := by
          simp only [Matrix.mul_assoc]
      _ = 1 := by
          rw [e1, hcons]
          rw [hdiag]
          exact e2
  have hdet : (stage2_init sqrt a).new_X.det ≠ 0 := Matrix.det_ne_zero_of_left_inverse hBT
  have hinv := Matrix.inv_eq_left_inv hBT
  obtain ⟨res, hres, hfin, _⟩ :=
    zero_step_result sqrt cbn prec a hX hO hn (by rw [hct]) hdet
  obtain ⟨fX, fO, _⟩ := hfin hk
  have hfun : (fun i => 1 / (iteration_values sqrt a hn (stage2_init sqrt a).new_X
      (stage2_init sqrt a).new_X⁻¹).new_D_w i) = fun i => 1 / sqrt (a.D_w i) := by
    funext i
    show 1 / (((stage2_init sqrt a).new_X i ⟨0, hn⟩ * sqrt_Sigma sqrt a ⟨0, hn⟩
      * sqrt a.N) ^ 2) ^ 2 = _
    rw [hscale i]
  refine ⟨res, hres, ?_, ?_⟩
  · rw [fX]
    show Matrix.diagonal (fun i => 1 / (iteration_values sqrt a hn (stage2_init sqrt a).new_X
      (stage2_init sqrt a).new_X⁻¹).new_D_w i) * (stage2_init sqrt a).new_X
        * Matrix.diagonal (sqrt_Sigma sqrt a) = a.X
    rw [hfun, hT]
    calc Matrix.diagonal (fun i => 1 / sqrt (a.D_w i))
          * (Matrix.diagonal (fun i => sqrt (a.D_w i)) * a.X
            * Matrix.diagonal (fun i => 1 / sqrt_Sigma sqrt a i))
          * Matrix.diagonal (sqrt_Sigma sqrt a)
        = (Matrix.diagonal (fun i => 1 / sqrt (a.D_w i))
            * Matrix.diagonal (fun i => sqrt (a.D_w i))) * a.X
            * (Matrix.diagonal (fun i => 1 / sqrt_Sigma sqrt a i)
              * Matrix.diagonal (sqrt_Sigma sqrt a)) := by
          simp only [Matrix.mul_assoc]
      _ = a.X := by rw [e3, e5, Matrix.one_mul, Matrix.mul_one]
  · rw [fO]
    show Matrix.diagonal (sqrt_Sigma sqrt a) * (stage2_init sqrt a).new_X⁻¹
      * Matrix.diagonal (fun i => 1 / (iteration_values sqrt a hn (stage2_init sqrt a).new_X
        (stage2_init sqrt a).new_X⁻¹).new_D_w i) = a.Omega
    rw [hfun, hinv]
    calc Matrix.diagonal (sqrt_Sigma sqrt a)
          * (Matrix.diagonal (fun i => 1 / sqrt_Sigma sqrt a i) * a.Omega
            * Matrix.diagonal (fun i => sqrt (a.D_w i)))
          * Matrix.diagonal (fun i => 1 / sqrt (a.D_w i))
        = (Matrix.diagonal (sqrt_Sigma sqrt a)
            * Matrix.diagonal (fun i => 1 / sqrt_Sigma sqrt a i)) * a.Omega
            * (Matrix.diagonal (fun i => sqrt (a.D_w i))
              * Matrix.diagonal (fun i => 1 / sqrt (a.D_w i))) := by
          simp only [Matrix.mul_assoc]
      _ = a.Omega := by rw [e6, e4, Matrix.one_mul, Matrix.mul_one]

theorem roundtrip_init_new_X :
    (stage2_init Rat.sqrt roundtrip_args).new_X = !![1 / 2, 1; 1 / 2, 2] := by
  ext i j
  fin_cases i <;> fin_cases j <;>
    norm_num [stage2_init, roundtrip_args, scaffold_args, sqrt_Sigma, Matrix.mul_apply,
      Fin.sum_univ_two, Matrix.diagonal, rat_sqrt_four, rat_sqrt_one]

theorem zero_step_returns_inputs_witness :
    ∃ res, derivative_stage2 Rat.sqrt id 0 roundtrip_args = some res ∧
      res.new_X = roundtrip_args.X ∧ res.new_Omega = roundtrip_args.Omega := by
  refine zero_step_returns_inputs Rat.sqrt id 0 roundtrip_args rfl rfl (by decide) rfl
    (by decide) ?_ ?_ ?_ ?_ ?_ ?_ ?_
  · ext i j
    fin_cases i <;> fin_cases j <;>
      simp [roundtrip_args, scaffold_args, Matrix.diagonal_apply]
  · ext i j
    fin_cases i <;> fin_cases j <;>
      simp [roundtrip_args, scaffold_args, Matrix.mul_apply, Fin.sum_univ_two,
        Matrix.diagonal_apply, Matrix.vecMul_diagonal] <;> norm_num
  · intro i
    fin_cases i <;> norm_num [roundtrip_args, scaffold_args]
  · intro i
    fin_cases i <;> norm_num [roundtrip_args, scaffold_args, rat_sqrt_four, rat_sqrt_one]
  · intro i
    fin_cases i <;> norm_num [roundtrip_args, scaffold_args]
  · intro i
    fin_cases i <;> norm_num [roundtrip_args, scaffold_args, rat_sqrt_one]
  · intro i
    rw [roundtrip_init_new_X]
    fin_cases i <;>
      norm_num [sqrt_Sigma, roundtrip_args, scaffold_args, rat_sqrt_four, rat_sqrt_one]

/-! ### Jump norm -/

/-- C20: for a matrix with at least two columns and a square root with
`sqrt (c ^ 2 * x) = c * sqrt x` on non-negative `c`, `x`, `jump_norm X r`
returns a matrix of the shape of `X` whose column `0` is all ones; in a row
`k` whose norm `rho` over the columns `1 ..` is positive, every entry of a
column `j ≥ 1` is `r / rho` when `r > rho` and `1` otherwise, and the row of
the entrywise product `X .* jump_norm X r` over the columns `1 ..` has norm
`max rho r`. -/
theorem jump_norm_lifts_short_rows {m n : ℕ} (sqrt : α → α)
    (X : Matrix (Fin m) (Fin n) α) (r : α) (h2 : 2 ≤ n)
    (hsq : ∀ c x, 0 ≤ c → 0 ≤ x → sqrt (c ^ 2 * x) = c * sqrt x) :
    ∃ N, jump_norm sqrt X r = some N ∧
      (∀ k, N k ⟨0, by omega⟩ = 1) ∧
      (∀ k, 0 < norm_2 sqrt (fun j : Fin (n - 1) => X k ⟨j.val + 1, by omega⟩) →
        ∀ j : Fin n, 1 ≤ j.val →
          N k j = if r > norm_2 sqrt (fun j : Fin (n - 1) => X k ⟨j.val + 1, by omega⟩)
            then r / norm_2 sqrt (fun j : Fin (n - 1) => X k ⟨j.val + 1, by omega⟩)
            else 1) ∧
      (∀ k, 0 < norm_2 sqrt (fun j : Fin (n - 1) => X k ⟨j.val + 1, by omega⟩) →
        norm_2 sqrt (fun j : Fin (n - 1) =>
            X k ⟨j.val + 1, by omega⟩ * N k ⟨j.val + 1, by omega⟩)
          = max (norm_2 sqrt (fun j : Fin (n - 1) => X k ⟨j.val + 1, by omega⟩)) r) := by
  refine ⟨_, dif_pos h2, ?_, ?_, ?_⟩
  · intro k
    simp
  · intro k _ j hj
    have hj0 : j.val ≠ 0 := by omega
    simp only [Matrix.of_apply, if_neg hj0]
  · intro k hrho
    simp only [Matrix.of_apply, Nat.add_one_ne_zero, if_false]
    by_cases hr : r > norm_2 sqrt (fun j : Fin (n - 1) => X k ⟨j.val + 1, by omega⟩)
    · simp only [if_pos hr]
      rw [max_eq_right hr.le]
      have hc : 0 ≤ r / norm_2 sqrt (fun j : Fin (n - 1) => X k ⟨j.val + 1, by omega⟩) :=
        div_nonneg (hrho.le.trans hr.le) hrho.le
      have hss : 0 ≤ ∑ j : Fin (n - 1), X k ⟨j.val + 1, by omega⟩ ^ 2 :=
        Finset.sum_nonneg fun j _ => sq_nonneg _
      have hsum : ∑ j : Fin (n - 1), (X k ⟨j.val + 1, by omega⟩
          * (r / norm_2 sqrt (fun j : Fin (n - 1) => X k ⟨j.val + 1, by omega⟩))) ^ 2
          = (r / norm_2 sqrt (fun j : Fin (n - 1) => X k ⟨j.val + 1, by omega⟩)) ^ 2
            * ∑ j : Fin (n - 1), X k ⟨j.val + 1, by omega⟩ ^ 2 := by
        rw [Finset.mul_sum]
        refine Finset.sum_congr rfl fun j _ => ?_
        ring
      show sqrt (∑ j : Fin (n - 1), (X k ⟨j.val + 1, by omega⟩
          * (r / norm_2 sqrt (fun j : Fin (n - 1) => X k ⟨j.val + 1, by omega⟩))) ^ 2) = r
      rw [hsum, hsq _ _ hc hss]
      exact div_mul_cancel₀ r hrho.ne'
    · simp only [if_neg hr, mul_one]
      rw [max_eq_left (not_lt.mp hr)]

theorem jump_norm_lifts_short_rows_witness :
    ∃ N, jump_norm Real.sqrt (!![5, 3, 4; 1, 0, 0] : Matrix (Fin 2) (Fin 3) ℝ) 10 = some N ∧
      ∀ k, N k 0 = 1 := by
  obtain ⟨N, hN, h0, _⟩ := jump_norm_lifts_short_rows Real.sqrt
    (!![5, 3, 4; 1, 0, 0] : Matrix (Fin 2) (Fin 3) ℝ) 10 (by decide)
    (fun c x hc _ => by rw [Real.sqrt_mul (sq_nonneg c), Real.sqrt_sq hc])
  exact ⟨N, hN, h0⟩

/-! ### The proportions sub-gradient on matrices of run-time shape -/

theorem foldlM_range_succ {σ : Type} (f : σ → ℕ → Option σ) (s : σ) (b : ℕ) :
    (List.range (b + 1)).foldlM f s = ((List.range b).foldlM f s).bind (fun t => f t b) := by
  rw [List.range_succ, List.foldlM_append]
  cases (List.range b).foldlM f s with
  | none => rfl
  | some t =>
    simp only [Option.bind_eq_bind, Option.some_bind, List.foldlM_cons, List.foldlM_nil]
    cases f t b <;> rfl

theorem DMat.at?_of_lt {A : DMat α} {i j : ℕ} (h : i < A.n_rows ∧ j < A.n_cols) :
    A.at? i j = some (A.elem i j) := by
  unfold DMat.at?
  rw [if_pos h]

theorem DMat.at?_of_not_lt {A : DMat α} {i j : ℕ} (h : ¬ (i < A.n_rows ∧ j < A.n_cols)) :
    A.at? i j = none := by
  unfold DMat.at?
  rw [if_neg h]

theorem tmp_loop_k_succ (R : DMat α) (m i j : ℕ) (TMP : ℕ → ℕ → α) (b : ℕ) :
    tmp_loop_k R m i j TMP (b + 1)
      = (tmp_loop_k R m i j TMP b).bind (fun T =>
          match R.at? b j with
          | none => none
          | some r => some (set_entry T j (b + i * m) (-r))) := by
  unfold tmp_loop_k
  exact foldlM_range_succ _ _ _

/-- The `k` loop succeeds when all its reads are in bounds, and then has
written `-R(k, j)` at the positions `(j, k + i*m)`, `k < b`, and nothing
else. -/
theorem tmp_loop_k_some (R : DMat α) (m i j : ℕ) (TMP : ℕ → ℕ → α) :
    ∀ b, (∀ k, k < b → k < R.n_rows ∧ j < R.n_cols) →
      tmp_loop_k R m i j TMP b = some (fun j' c' =>
        if j' = j ∧ i * m ≤ c' ∧ c' < i * m + b then -R.elem (c' - i * m) j
        else TMP j' c') := by
  intro b
  induction b with
  | zero =>
    intro _
    show some TMP = _
    congr 1
    funext j' c'
    rw [if_neg]
    omega
  | succ b ih =>
    intro h
    rw [tmp_loop_k_succ, ih fun k hk => h k (by omega), Option.some_bind,
      DMat.at?_of_lt (h b (by omega))]
    show some _ = some _
    congr 1
    funext j' c'
    simp only [set_entry]
    split_ifs with h1 h2 h3 h4 <;>
      first
        | rfl
        | (exfalso; omega)
        | (obtain ⟨_, hc⟩ := h1
           subst hc
           congr 2
           omega)

theorem tmp_loop_k_none (R : DMat α) (m i j : ℕ) (TMP : ℕ → ℕ → α) :
    ∀ b, (∃ k, k < b ∧ ¬ (k < R.n_rows ∧ j < R.n_cols)) →
      tmp_loop_k R m i j TMP b = none := by
  intro b
  induction b with
  | zero =>
    rintro ⟨k, hk, _⟩
    omega
  | succ b ih =>
    rintro ⟨k, hk, hbad⟩
    rw [tmp_loop_k_succ]
    cases hprev : tmp_loop_k R m i j TMP b with
    | none => rfl
    | some T =>
      rw [Option.some_bind]
      have hkb : k = b := by
        by_contra hne
        rw [ih ⟨k, by omega, hbad⟩] at hprev
        exact Option.noConfusion hprev
      subst hkb
      rw [DMat.at?_of_not_lt hbad]

theorem tmp_loop_j_succ (H R : DMat α) (i : ℕ) (TMP : ℕ → ℕ → α) (b : ℕ) :
    tmp_loop_j H R i TMP (b + 1)
      = (tmp_loop_j H R i TMP b).bind (fun T =>
          if H.elem i b < 0 then tmp_loop_k R H.n_rows i b T H.n_rows else some T) := by
  unfold tmp_loop_j
  exact foldlM_range_succ _ _ _

/-- The `j` loop succeeds when every read caused by a strictly negative
`H(i, j)` is in bounds, and then has written `-R(k, j)` at `(j, k + i*m)` for
those `j < b` and all `k < m`, and nothing else. -/
theorem tmp_loop_j_some (H R : DMat α) (i : ℕ) (TMP : ℕ → ℕ → α) :
    ∀ b, (∀ j, j < b → H.elem i j < 0 → ∀ k, k < H.n_rows → k < R.n_rows ∧ j < R.n_cols) →
      tmp_loop_j H R i TMP b = some (fun j' c' =>
        if j' < b ∧ H.elem i j' < 0 ∧ i * H.n_rows ≤ c' ∧ c' < i * H.n_rows + H.n_rows
        then -R.elem (c' - i * H.n_rows) j' else TMP j' c') := by
  intro b
  induction b with
  | zero =>
    intro _
    show some TMP = _
    congr 1
  | succ b ih =>
    intro h
    rw [tmp_loop_j_succ, ih fun j hj => h j (by omega), Option.some_bind]
    by_cases hneg : H.elem i b < 0
    · rw [if_pos hneg, tmp_loop_k_some R H.n_rows i b _ H.n_rows (h b (by omega) hneg)]
      congr 1
      funext j' c'
      by_cases hj : j' = b
      · subst hj
        by_cases hr : i * H.n_rows ≤ c' ∧ c' < i * H.n_rows + H.n_rows
        · rw [if_pos ⟨rfl, hr⟩, if_pos ⟨by omega, hneg, hr⟩]
        · rw [if_neg (fun hh => hr hh.2), if_neg (fun hh => hr hh.2.2),
            if_neg (fun hh => hr hh.2.2)]
      · rw [if_neg (fun hh => hj hh.1)]
        by_cases hc : j' < b ∧ H.elem i j' < 0 ∧ i * H.n_rows ≤ c' ∧
            c' < i * H.n_rows + H.n_rows
        · rw [if_pos hc, if_pos ⟨by omega, hc.2⟩]
        · rw [if_neg hc, if_neg]
          rintro ⟨h1, h2⟩
          exact hc ⟨by omega, h2⟩
    · rw [if_neg hneg]
      congr 1
      funext j' c'
      by_cases hc : j' < b ∧ H.elem i j' < 0 ∧ i * H.n_rows ≤ c' ∧
          c' < i * H.n_rows + H.n_rows
      · rw [if_pos hc, if_pos ⟨by omega, hc.2⟩]
      · rw [if_neg hc, if_neg]
        rintro ⟨h1, h2⟩
        have hjb : j' ≠ b := fun e => hneg (e ▸ h2.1)
        exact hc ⟨by omega, h2⟩

theorem tmp_loop_j_none (H R : DMat α) (i : ℕ) (TMP : ℕ → ℕ → α) :
    ∀ b, (∃ j k, j < b ∧ k < H.n_rows ∧ H.elem i j < 0 ∧ ¬ (k < R.n_rows ∧ j < R.n_cols)) →
      tmp_loop_j H R i TMP b = none := by
  intro b
  induction b with
  | zero =>
    rintro ⟨j, k, hj, _⟩
    omega
  | succ b ih =>
    rintro ⟨j, k, hj, hk, hneg, hbad⟩
    rw [tmp_loop_j_succ]
    cases hprev : tmp_loop_j H R i TMP b with
    | none => rfl
    | some T =>
      rw [Option.some_bind]
      have hjb : j = b := by
        by_contra hne
        rw [ih ⟨j, k, by omega, hk, hneg, hbad⟩] at hprev
        exact Option.noConfusion hprev
      subst hjb
      rw [if_pos hneg]
      exact tmp_loop_k_none R H.n_rows i j T H.n_rows ⟨k, hk, hbad⟩

theorem tmp_loop_i_succ (H R : DMat α) (b : ℕ) :
    tmp_loop_i H R (b + 1)
      = (tmp_loop_i H R b).bind (fun T => tmp_loop_j H R b T H.n_cols) := by
  unfold tmp_loop_i
  exact foldlM_range_succ _ _ _

theorem flat_index_block {m i b k : ℕ} (hk : k < m) (hne : i ≠ b) :
    ¬ (b * m ≤ k + i * m ∧ k + i * m < b * m + m) := by
  rintro ⟨h1, h2⟩
  rcases Nat.lt_or_gt_of_ne hne with hlt | hgt
  · have h3 : (i + 1) * m ≤ b * m := Nat.mul_le_mul_right m hlt
    rw [Nat.add_mul, Nat.one_mul] at h3
    omega
  · have h3 : (b + 1) * m ≤ i * m := Nat.mul_le_mul_right m hgt
    rw [Nat.add_mul, Nat.one_mul] at h3
    omega

/-- The three loops succeed when every read caused by a strictly negative
entry of `H` is in bounds, and then `TMP(j, k + i*m)` is `-R(k, j)` where
`H(i, j) < 0` and `0` elsewhere. -/
theorem tmp_loop_i_some (H R : DMat α) :
    ∀ b, (∀ i j k, i < b → j < H.n_cols → k < H.n_rows → H.elem i j < 0 →
        k < R.n_rows ∧ j < R.n_cols) →
      ∃ T, tmp_loop_i H R b = some T ∧
        ∀ j' i k, k < H.n_rows →
          T j' (k + i * H.n_rows)
            = if i < b ∧ j' < H.n_cols ∧ H.elem i j' < 0 then -R.elem k j' else 0 := by
  intro b
  induction b with
  | zero =>
    intro _
    refine ⟨fun _ _ => 0, rfl, fun j' i k _ => ?_⟩
    rw [if_neg]
    omega
  | succ b ih =>
    intro h
    obtain ⟨T, hT, hval⟩ := ih fun i j k hi => h i j k (by omega)
    refine ⟨fun j' c' =>
      if j' < H.n_cols ∧ H.elem b j' < 0 ∧ b * H.n_rows ≤ c' ∧ c' < b * H.n_rows + H.n_rows
      then -R.elem (c' - b * H.n_rows) j' else T j' c', ?_, ?_⟩
    · rw [tmp_loop_i_succ, hT, Option.some_bind]
      exact tmp_loop_j_some H R b T H.n_cols fun j hj hneg k hk => h b j k (by omega) hj hk hneg
    · intro j' i k hk
      beta_reduce
      by_cases hib : i = b
      · subst hib
        by_cases hc : j' < H.n_cols ∧ H.elem i j' < 0
        · rw [if_pos ⟨hc.1, hc.2, by omega, by omega⟩, if_pos ⟨by omega, hc⟩]
          congr 2
          omega
        · rw [if_neg (fun hh => hc ⟨hh.1, hh.2.1⟩), if_neg (fun hh => hc hh.2), hval j' i k hk,
            if_neg]
          omega
      · rw [if_neg (fun hh => flat_index_block hk hib hh.2.2), hval j' i k hk]
        by_cases hc : i < b ∧ j' < H.n_cols ∧ H.elem i j' < 0
        · rw [if_pos hc, if_pos ⟨by omega, hc.2⟩]
        · rw [if_neg hc, if_neg]
          rintro ⟨h1, h2⟩
          exact hc ⟨by omega, h2⟩

theorem tmp_loop_i_none (H R : DMat α) :
    ∀ b, (∃ i j k, i < b ∧ j < H.n_cols ∧ k < H.n_rows ∧ H.elem i j < 0 ∧
        ¬ (k < R.n_rows ∧ j < R.n_cols)) →
      tmp_loop_i H R b = none := by
  intro b
  induction b with
  | zero =>
    rintro ⟨i, j, k, hi, _⟩
    omega
  | succ b ih =>
    rintro ⟨i, j, k, hi, hj, hk, hneg, hbad⟩
    rw [tmp_loop_i_succ]
    cases hprev : tmp_loop_i H R b with
    | none => rfl
    | some T =>
      rw [Option.some_bind]
      have hib : i = b := by
        by_contra hne
        rw [ih ⟨i, j, k, by omega, hj, hk, hneg, hbad⟩] at hprev
        exact Option.noConfusion hprev
      subst hib
      exact tmp_loop_j_none H R i T H.n_cols ⟨j, k, hj, hk, hneg, hbad⟩

/-- The call on matrices of run-time shape returns when every read of `R` is
in bounds; the result is `m × m` and holds the sums of the fixed-shape
model. -/
theorem hinge_der_proportions_checked_some (H R : DMat α) (q : α)
    (hok : ∀ i j k, i < H.n_rows → j < H.n_cols → k < H.n_rows → H.elem i j < 0 →
      k < R.n_rows ∧ j < R.n_cols) :
    ∃ D, hinge_der_proportions_checked H R q = some D ∧
      D.n_rows = H.n_rows ∧ D.n_cols = H.n_rows ∧
      ∀ i k, i < H.n_rows → k < H.n_rows →
        D.elem i k = ∑ j in Finset.range H.n_cols,
          if H.elem i j < 0 then -R.elem k j else 0 := by
  obtain ⟨T, hT, hval⟩ := tmp_loop_i_some H R H.n_rows hok
  refine ⟨DMat.mk H.n_rows H.n_rows
    (fun i k => ∑ j in Finset.range H.n_cols, T j (k + i * H.n_rows)),
    by simp only [hinge_der_proportions_checked, hT], rfl, rfl, ?_⟩
  intro i k hi hk
  show ∑ j in Finset.range H.n_cols, T j (k + i * H.n_rows) = _
  refine Finset.sum_congr rfl fun j hj => ?_
  rw [hval j i k hk]
  have hj' : j < H.n_cols := Finset.mem_range.mp hj
  by_cases hneg : H.elem i j < 0
  · rw [if_pos ⟨hi, hj', hneg⟩, if_pos hneg]
  · rw [if_neg (fun hh => hneg hh.2.2), if_neg hneg]

theorem hinge_der_proportions_checked_none (H R : DMat α) (q : α)
    (hbad : ∃ i j k, i < H.n_rows ∧ j < H.n_cols ∧ k < H.n_rows ∧ H.elem i j < 0 ∧
      ¬ (k < R.n_rows ∧ j < R.n_cols)) :
    hinge_der_proportions_checked H R q = none := by
  simp only [hinge_der_proportions_checked, tmp_loop_i_none H R H.n_rows hbad]

/-- On matrices of one fixed shape the run-time-shape model returns the
entries of `hinge_der_proportions_C__`. -/
theorem hinge_der_proportions_checked_ofMatrix {m n : ℕ} (H R : Matrix (Fin m) (Fin n) α)
    (q : α) :
    ∃ D, hinge_der_proportions_checked (DMat.ofMatrix H) (DMat.ofMatrix R) q = some D ∧
      D.n_rows = m ∧ D.n_cols = m ∧
      ∀ i k : Fin m, D.elem i k = hinge_der_proportions_C__ H R q i k := by
  obtain ⟨D, hD, hr, hc, hval⟩ := hinge_der_proportions_checked_some (DMat.ofMatrix H)
    (DMat.ofMatrix R) q (fun i j k _ hj hk _ => ⟨hk, hj⟩)
  refine ⟨D, hD, hr, hc, fun i k => ?_⟩
  rw [hval i k i.isLt k.isLt, hinge_der_proportions_apply]
  show ∑ j in Finset.range n, _ = _
  rw [Finset.sum_range]
  refine Finset.sum_congr rfl fun j _ => ?_
  simp [DMat.ofMatrix]

/-- C11 fails: for the `1 × 2` matrix `H = [1, 2]` without negative entry and
the `1 × 1` matrix `R = [7]` the call returns a matrix, and for
`H = [-1, 2]` and a `3 × 3` matrix `R` it returns a matrix as well. -/
theorem mismatched_shapes_are_accepted :
    (∃ D, hinge_der_proportions_checked (DMat.ofMatrix shape_H_nonneg)
        (DMat.ofMatrix shape_R_small) 0 = some D) ∧
      (∃ D, hinge_der_proportions_checked (DMat.ofMatrix shape_H_neg)
        (DMat.ofMatrix shape_R_large) 0 = some D) := by
  constructor
  · obtain ⟨D, hD, _⟩ := hinge_der_proportions_checked_some (DMat.ofMatrix shape_H_nonneg)
      (DMat.ofMatrix shape_R_small) 0 (by
        intro i j k hi hj _ hneg
        exfalso
        have hi' : i < 1 := hi
        have hj' : j < 2 := hj
        interval_cases i
        interval_cases j <;> norm_num [DMat.ofMatrix, shape_H_nonneg] at hneg)
    exact ⟨D, hD⟩
  · obtain ⟨D, hD, _⟩ := hinge_der_proportions_checked_some (DMat.ofMatrix shape_H_neg)
      (DMat.ofMatrix shape_R_large) 0 (by
        intro i j k _ hj hk _
        have hj' : j < 2 := hj
        have hk' : k < 1 := hk
        exact ⟨show k < 3 by omega, show j < 3 by omega⟩)
    exact ⟨D, hD⟩

/-- C11 (amended): `hinge_der_proportions_C__` compares no shapes.  The call
ends with an error exactly when a read `R(k, j)`, `k < m`, made for a
strictly negative `H(i, j)`, is out of the bounds of `R`; in every other case
(for instance when `H` has no strictly negative entry, or `R` is larger than
`m × n`) it returns a matrix. -/
theorem hinge_der_proportions_checked_fails_iff (H R : DMat α) (q : α) :
    hinge_der_proportions_checked H R q = none ↔
      ∃ i j k, i < H.n_rows ∧ j < H.n_cols ∧ k < H.n_rows ∧ H.elem i j < 0 ∧
        ¬ (k < R.n_rows ∧ j < R.n_cols) := by
  constructor
  · intro hnone
    by_contra hcon
    obtain ⟨D, hD, _⟩ := hinge_der_proportions_checked_some H R q (by
      intro i j k hi hj hk hneg
      by_contra hbad
      exact hcon ⟨i, j, k, hi, hj, hk, hneg, hbad⟩)
    rw [hD] at hnone
    exact Option.noConfusion hnone
  · exact hinge_der_proportions_checked_none H R q

/-- C15 fails: for the `1 × 2` matrices `H = [-1, 2]` and `R = [3, 4]`
(`m = 1`, `n = 2`) the result has one row and one column. -/
theorem proportions_result_is_m_by_m_example :
    (DMat.ofMatrix shape_H_neg).n_cols = 2 ∧ (DMat.ofMatrix shape_R_match).n_cols = 2 ∧
      ∃ D, hinge_der_proportions_checked (DMat.ofMatrix shape_H_neg)
          (DMat.ofMatrix shape_R_match) 0 = some D ∧
        D.n_rows = 1 ∧ D.n_cols = 1 ∧ ¬ (D.n_rows = 2 ∧ D.n_cols = 2) := by
  obtain ⟨D, hD, hr, hc, _⟩ :=
    hinge_der_proportions_checked_ofMatrix shape_H_neg shape_R_match 0
  exact ⟨rfl, rfl, D, hD, hr, hc, by omega⟩

/-- C15 (amended): whenever `hinge_der_proportions_C__` returns, the result
has `m` rows and `m` columns, `m` being the number of rows of `H`. -/
theorem proportions_result_shape (H R : DMat α) (q : α) (D : DMat α)
    (h : hinge_der_proportions_checked H R q = some D) :
    D.n_rows = H.n_rows ∧ D.n_cols = H.n_rows := by
  unfold hinge_der_proportions_checked at h
  cases hT : tmp_loop_i H R H.n_rows with
  | none => simp [hT] at h
  | some T =>
    simp only [hT, Option.some.injEq] at h
    subst h
    exact ⟨rfl, rfl⟩

theorem proportions_result_shape_witness :
    ∃ D, hinge_der_proportions_checked (DMat.ofMatrix shape_H_neg)
        (DMat.ofMatrix shape_R_match) 0 = some D ∧
      D.n_rows = (DMat.ofMatrix shape_H_neg).n_rows ∧
      D.n_cols = (DMat.ofMatrix shape_H_neg).n_rows := by
  obtain ⟨D, hD, _⟩ :=
    hinge_der_proportions_checked_ofMatrix shape_H_neg shape_R_match 0
  exact ⟨D, hD, proportions_result_shape _ _ 0 D hD⟩

end DualSimplex
